import Mathlib

/-!
Verification of the LLHD Control Flow Simplification pass (`src/pass/cfs.rs`).

This file gives a shallow embedding of the control-flow-simplification pass
and proves/refutes the specification claims about it.

The embedding follows the Rust source `src/pass/cfs.rs`:

* `Cond`, `edgeCond`, `justifyEdgeF` embed `Cond` and `justify_edge`;
* `preparePhi` embeds `prepare_phi`;
* `chooseDisc`, `splitWays`, `buildDisc` embed `build_discriminator`;
* `maybeElidePhi` embeds `maybe_elide_phi`;
* `numStep`/`numRun` embed `BlockNumbering::new`;
* `runOnCfg` embeds `ControlFlowSimplification::run_on_cfg`.

External collaborators (the SSA IR storage, `PredecessorTable`, `DominatorTree`
from `pass/gcse.rs`, and the mutation API of `UnitBuilder`) are not part of the
analyzed source; they are modelled from the specification's §3 and §6, with a
doc comment marking each such definition.

Rust `HashMap`/`HashSet` iteration order is unspecified; wherever the source
iterates such a container we either parametrize over the processing order (the
numbering worklist takes an explicit choice sequence) or fix a deterministic
order (histogram keys in first-occurrence order); every concrete example used
in a theorem below is free of ties, so the deterministic choice is irrelevant
to the stated facts.  Rust panics (`unreachable!`, `.expect`, indexing a map
with a missing key) are modelled by `Option`/`Except` failure values.
-/

/-- Opaque handle of a basic block (§3 of the spec, `ir::Block`). -/
abbrev Block := Nat

/-- Opaque handle of an SSA value (§3 of the spec, `ir::Value`). -/
abbrev Value := Nat

/-- Opaque handle of an instruction (§3 of the spec, `ir::Inst`). -/
abbrev Inst := Nat

/-- The instruction opcodes relevant to this pass (`Opcode::Br`, `Wait`,
`WaitTime`, `BrCond`, `Phi`, `Array`, `Mux`); `other` stands for the open
set of remaining opcodes. -/
inductive Opcode where
  | br | wait | waitTime | brCond | phi | arr | mux | other
deriving DecidableEq, Repr

/-- `Opcode::is_terminator` as used by `BlockNumbering::new`. -/
def Opcode.is_terminator : Opcode → Bool
  | .br | .wait | .waitTime | .brCond => true
  | _ => false

/-- `Opcode::is_phi` as used by `run_on_cfg`. -/
def Opcode.is_phi : Opcode → Bool
  | .phi => true
  | _ => false

/-- Modelled from the spec (§3, §6): the per-instruction data the pass reads —
opcode tag, operand value list (`args()`), associated target-block list
(`blocks()`), and the instruction's result value if it produces one
(`dfg.inst_result`). -/
structure InstData where
  opcode : Opcode
  args : List Value
  blocks : List Block
  result : Option Value
deriving DecidableEq, Repr

/-- Modelled from the spec (§3, §6): one function body — the entry block,
the layout order of blocks, the per-block instruction lists (each ending in
the block's terminator), the instruction data table, and fresh-handle
counters for newly created instructions and values. -/
structure IRUnit where
  entry : Block
  blockList : List Block
  insts : List (Block × List Inst)
  data : List (Inst × InstData)
  nextInst : Inst
  nextValue : Value
deriving DecidableEq, Repr

/-- Association-list lookup used for all handle-keyed tables. -/
def lookupA {β : Type} (l : List (Nat × β)) (b : Nat) : Option β :=
  (l.find? (fun p => p.1 = b)).map (·.2)

/-- `dfg[inst]`: the data of an instruction (`none` models the panic on a
missing handle). -/
def getData (u : IRUnit) (i : Inst) : Option InstData :=
  lookupA u.data i

/-- The instruction list of a block in layout order. -/
def blockInsts (u : IRUnit) (b : Block) : List Inst :=
  (lookupA u.insts b).getD []

/-- `func_layout().terminator(b)`: the last instruction of the block,
together with its data (`none` models the panic on an empty block or a
missing handle). -/
def getTermData (u : IRUnit) (b : Block) : Option InstData :=
  (blockInsts u b).getLast?.bind (getData u)

/-- The successor blocks of `b` as `BlockNumbering::new` sees them: the
target blocks of the terminator, provided its opcode `is_terminator`. -/
def succsOf (u : IRUnit) (b : Block) : List Block :=
  match getTermData u b with
  | some d => if d.opcode.is_terminator then d.blocks else []
  | none => []

/-- Modelled from the spec (§6): the pre-built `PredecessorTable` —
`predecessors(block)` is the sequence of blocks whose terminator transfers
control to `block` (here in layout order). -/
def predsOf (u : IRUnit) (b : Block) : List Block :=
  u.blockList.filter (fun p => b ∈ succsOf u p)

/-! ## Block numbering (`BlockNumbering::new`, source lines 273–333)

The Rust worklist keeps `pending` in a `HashSet` and processes
`pending.iter().next()` — an unspecified element.  The embedding keeps
`pending` as a duplicate-free list and takes an explicit choice sequence:
at each step the element at index `c % pending.length` is processed, so
every possible `HashSet` iteration behaviour corresponds to some choice
sequence (`0` everywhere gives the FIFO order recommended by spec §9).

The `edges` field is a ghost observer recording every traversed edge
(source processed, successor inspected), with the source's number and the
target's number at inspection time; it feeds no computation. -/

/-- One traversed edge of the numbering algorithm: source block, target
block, the source's number, and the target's number at the moment the edge
was inspected (`none` = the target was unnumbered and received
`srcNum + 1` by `numbers.entry(bb).or_insert`). -/
structure EdgeEv where
  src : Block
  tgt : Block
  srcNum : Nat
  tgtNum : Option Nat
deriving DecidableEq, Repr

/-- The worklist state of `BlockNumbering::new`. -/
structure NumState where
  numbers : List (Block × Nat)
  order : List Block
  done : List Block
  pending : List Block
  edges : List EdgeEv
deriving DecidableEq, Repr

/-- The initial state of `BlockNumbering::new`: `pending = {entry}`,
`numbers = {entry ↦ 0}`. -/
def initNum (u : IRUnit) : NumState :=
  ⟨[(u.entry, 0)], [], [], [u.entry], []⟩

/-- The enqueueing part of one worklist iteration:
`pending.extend(successors not yet done)`, with the `HashSet` deduplicating
against blocks already pending. -/
def addPend (done : List Block) : List Block → List Block → List Block
  | [], p => p
  | bb :: bbs, p => addPend done bbs (if bb ∈ done ∨ bb ∈ p then p else p ++ [bb])

/-- The numbering part of one worklist iteration:
`numbers.entry(bb).or_insert(n + 1)` for every successor `bb`, also
recording each inspected edge in the ghost `edges` list. -/
def numAssign (block : Block) (n : Nat) :
    List Block → List (Block × Nat) × List EdgeEv → List (Block × Nat) × List EdgeEv
  | [], me => me
  | bb :: bbs, me =>
    numAssign block n bbs
      (if (lookupA me.1 bb).isSome then me.1 else me.1 ++ [(bb, n + 1)],
       me.2 ++ [⟨block, bb, n, lookupA me.1 bb⟩])

/-- One iteration of the `while let Some(&block) = pending.iter().next()`
loop, processing the pending block selected by `c`. -/
def numStep (u : IRUnit) (c : Nat) (s : NumState) : NumState :=
  if s.pending.isEmpty then s
  else
    let block := s.pending.getD (c % s.pending.length) 0
    let done := s.done ++ [block]
    let order := s.order ++ [block]
    let pending := addPend done (succsOf u block) (s.pending.erase block)
    let n := (lookupA s.numbers block).getD 0
    let ne := numAssign block n (succsOf u block) (s.numbers, s.edges)
    ⟨ne.1, order, done, pending, ne.2⟩

/-- The whole worklist loop, one choice per iteration. -/
def numRun (u : IRUnit) (cs : List Nat) (s : NumState) : NumState :=
  match cs with
  | [] => s
  | c :: cs => numRun u cs (numStep u c s)

/-- The numbering table produced with the FIFO processing order (spec §9's
recommended deterministic choice), as used by `run_on_cfg` via
`BlockNumbering::new`. -/
def bnFifo (u : IRUnit) : List (Block × Nat) :=
  (numRun u (List.replicate (u.blockList.length + 1) 0) (initNum u)).numbers


/-! ## Edge justification (`justify_edge`, source lines 137–190) -/

/-- `Cond` (source lines 192–196): a signed reference to a boolean value. -/
inductive Cond where
  | Pos (v : Value)
  | Neg (v : Value)
deriving DecidableEq, Repr

/-- Failure modes of the recursive search: `weirdTerm` models the
`unreachable!("weird terminator found")` panic (and the index panics on a
malformed terminator); `outOfFuel` marks exhaustion of the fuel that stands
in for Rust's unbounded recursion. -/
inductive JErr where
  | outOfFuel
  | weirdTerm
deriving DecidableEq, Repr

/-- The `match data.opcode()` of `justify_edge` (source lines 156–166):
under what condition does the terminator `d` transfer control to `tgt2`?
`some none` = unconditional, `some (some c)` = conditional, `none` = the
fatal `unreachable!` (any other terminator kind, or a malformed
`CondBranch`). -/
def edgeCond (d : InstData) (tgt2 : Block) : Option (Option Cond) :=
  match d.opcode with
  | .br | .wait | .waitTime => some none
  | .brCond =>
    match d.args, d.blocks with
    | sel :: _, b0 :: b1 :: _ =>
      if b0 = tgt2 then some (some (Cond.Neg sel))
      else if b1 = tgt2 then some (some (Cond.Pos sel))
      else none
    | _, _ => none
  | _ => none

/-- `justify_edge` (source lines 137–190): all chains of conditions that
must hold to arrive at `dst` coming from `frm`, ultimately originating in
`target`, with the path stack `seen` guarding against cycles.  One unit of
fuel is consumed per nested invocation, so the fuel bounds the recursion
depth. -/
def justifyEdgeF (u : IRUnit) : Nat → Block → Block → Block → List Block →
    Except JErr (List (List Cond))
  | 0, _, _, _, _ => .error .outOfFuel
  | fuel + 1, frm, dst, target, seen =>
    match getTermData u frm with
    | none => .error .weirdTerm
    | some d =>
      match edgeCond d dst with
      | none => .error .weirdTerm
      | some cond =>
        if frm = target then .ok [cond.toList]
        else
          let seen' := seen ++ [dst]
          (predsOf u frm).foldlM
            (fun routes bb =>
              if bb ∈ seen' then .ok routes
              else do
                let rs ← justifyEdgeF u fuel bb frm target seen'
                .ok (routes ++ rs.map (fun r => r ++ cond.toList)))
            []

/-- `prepare_phi` (source lines 105–133): the ways justifying each incoming
edge of the phi instruction `inst` in `block` against the reference block
`imm`. -/
def preparePhi (u : IRUnit) (block : Block) (inst : Inst) (imm : Block) :
    Except JErr (List (Value × List Cond)) :=
  match getData u inst with
  | none => .ok []
  | some d =>
    (d.blocks.zip d.args).foldlM
      (fun ways bbArg => do
        let rs ← justifyEdgeF u (2 * u.blockList.length + 2) bbArg.1 block imm []
        .ok (ways ++ rs.map (fun r => (bbArg.2, r))))
      []

/-! ## Discriminator synthesis (`build_discriminator`, source lines 198–254)

The histogram is a `HashMap<Value, (usize, isize)>`; its final content is
exactly `v ↦ (uses v, tick v)` below.  `into_iter().max_by_key(...)`
iterates in an unspecified order and returns the last maximum; the
embedding iterates the keys in first-occurrence order (our examples are
tie-free, so the order never influences a stated fact). -/

/-- The boolean value a condition refers to. -/
def condValue : Cond → Value
  | .Pos v => v
  | .Neg v => v

/-- The histogram increment of a condition (`+1` for `Pos`, `-1` for `Neg`). -/
def condTick : Cond → Int
  | .Pos _ => 1
  | .Neg _ => -1

/-- All conditions of all ways, concatenated. -/
def allConds (ways : List (Value × List Cond)) : List Cond :=
  (ways.map Prod.snd).flatten

/-- `uses v`: how many condition occurrences mention `v` (the `e.0 += 1`
accumulation of the source). -/
def usesOf (ways : List (Value × List Cond)) (v : Value) : Nat :=
  (allConds ways).countP (fun c => condValue c = v)

/-- `tick v`: the signed polarity balance of `v` (the `e.1 += tick`
accumulation of the source). -/
def tickOf (ways : List (Value × List Cond)) (v : Value) : Int :=
  (((allConds ways).filter (fun c => condValue c = v)).map condTick).sum

/-- The histogram's key set, in first occurrence order. -/
def keysOf (ways : List (Value × List Cond)) : List Value :=
  (allConds ways).foldl (fun acc c => if condValue c ∈ acc then acc else acc ++ [condValue c]) []

/-- Lexicographic `≥` on the sort key `(uses, -|tick|)` of `max_by_key`. -/
def keyGe (a b : Nat × Int) : Bool :=
  b.1 < a.1 ∨ (a.1 = b.1 ∧ b.2 ≤ a.2)

/-- The running-best accumulation of `max_by_key`: a later element
replaces the best exactly when its key is lexicographically `≥`. -/
def maxByKeyGo (key : Value → Nat × Int) : List Value → Value → Value
  | [], b => b
  | v :: l, b => maxByKeyGo key l (if keyGe (key v) (key b) then v else b)

/-- `max_by_key` over a list of keys: returns the last element whose sort
key is maximal, `none` on an empty list. -/
def maxByKeyLast (key : Value → Nat × Int) : List Value → Option Value
  | [] => none
  | v :: l => some (maxByKeyGo key l v)

/-- The sort key `(uses v, -|tick v|)` used by the source's `max_by_key`. -/
def discKey (ways : List (Value × List Cond)) (v : Value) : Nat × Int :=
  (usesOf ways v, -(tickOf ways v).natAbs)

/-- The discriminator selection of `build_discriminator` (source lines
210–227); `none` models the `.expect("some discriminator must be present")`
panic on an empty histogram. -/
def chooseDisc (ways : List (Value × List Cond)) : Option Value :=
  maxByKeyLast (discKey ways) (keysOf ways)

/-- The way partition of `build_discriminator` (source lines 231–244): the
ways whose conjunction contains `cond`, with every occurrence of `cond`
removed. -/
def splitWays (ways : List (Value × List Cond)) (cond : Cond) :
    List (Value × List Cond) :=
  ways.filterMap
    (fun w => if cond ∈ w.2 then some (w.1, w.2.filter (fun c => c ≠ cond)) else none)

/-- Modelled from the spec (§6 mutation API): insert a fresh instruction
immediately before `anchor` in whatever block contains it
(`unit.insert_before(inst)` followed by `unit.ins()...`). -/
def insertBeforeList (anchor i : Inst) : List Inst → List Inst
  | [] => []
  | x :: xs => if x = anchor then i :: x :: xs else x :: insertBeforeList anchor i xs

/-- Modelled from the spec (§6 mutation API): allocate a fresh instruction
with data `d` (its result value being the fresh `u.nextValue`), placed
before `anchor`; returns the new unit and the new instruction's result
value. -/
def insertIns (u : IRUnit) (anchor : Inst) (d : InstData) : IRUnit × Value :=
  let i := u.nextInst
  let v := u.nextValue
  (⟨u.entry, u.blockList,
    u.insts.map (fun bl => (bl.1, insertBeforeList anchor i bl.2)),
    (i, { d with result := some v }) :: u.data,
    u.nextInst + 1, u.nextValue + 1⟩, v)

/-- Modelled from the spec (§6 mutation API):
`replace-operand-value(instruction, old, new)` scoped to one instruction
(`dfg_mut()[inst].replace_value(v, disc)`). -/
def replaceValueIn (u : IRUnit) (inst : Inst) (old new : Value) : IRUnit :=
  { u with data := u.data.map fun p =>
      if p.1 = inst
        then (p.1, { p.2 with args := p.2.args.map (fun a => if a = old then new else a) })
        else p }

/-- `build_discriminator` (source lines 198–254): build the selection tree
for `ways`, inserting `array`/`mux` instructions before `anchor`; returns
the updated unit and the discriminating value.  `none` models the
`.expect` panic (empty histogram, which happens exactly when the recursion
is reached with an empty or undiscriminable way list) and fuel exhaustion
(the recursion strictly shrinks the total condition count, so any fuel
above that count is sufficient). -/
def buildDisc : Nat → IRUnit → Inst → List (Value × List Cond) →
    Option (IRUnit × Value)
  | 0, _, _, _ => none
  | fuel + 1, u, anchor, ways =>
    if ways.length = 1 then ways.head?.map (fun w => (u, w.1))
    else
      match chooseDisc ways with
      | none => none
      | some disc =>
        match buildDisc fuel u anchor (splitWays ways (Cond.Neg disc)) with
        | none => none
        | some p1 =>
          match buildDisc fuel p1.1 anchor (splitWays ways (Cond.Pos disc)) with
          | none => none
          | some p2 =>
            let p3 := insertIns p2.1 anchor ⟨.arr, [p1.2, p2.2], [], none⟩
            let p4 := insertIns p3.1 anchor ⟨.mux, [p3.2, disc], [], none⟩
            some (p4.1, p4.2)

/-- The fuel that suffices for `buildDisc` on `ways`. -/
def bdFuel (ways : List (Value × List Cond)) : Nat :=
  (ways.map (fun w => w.2.length)).sum + 2

/-- The mutate phase A of `run_on_cfg` (source lines 61–72): for one
recorded `(inst, ways)` pair, build the discriminator before `inst` and
replace every way value among `inst`'s operands with it. -/
def mutateAStep (u : IRUnit) (p : Inst × List (Value × List Cond)) :
    Option IRUnit :=
  match buildDisc (bdFuel p.2) u p.1 p.2 with
  | none => none
  | some r => some (p.2.foldl (fun uu vw => replaceValueIn uu p.1 vw.1 r.2) r.1)

/-- The iteration of mutate phase A over the recorded pairs, accumulating
the `modified` flag (`modified |= true` per processed pair). -/
def mutateAGo : List (Inst × List (Value × List Cond)) → IRUnit × Bool →
    Option (IRUnit × Bool)
  | [], um => some um
  | p :: ps, um => do
    let u1 ← mutateAStep um.1 p
    mutateAGo ps (u1, true)

def mutateA (u : IRUnit) (pairs : List (Inst × List (Value × List Cond))) :
    Option (IRUnit × Bool) :=
  mutateAGo pairs (u, false)

/-! ## Phi elision (`maybe_elide_phi`, source lines 256–265, and the
phase B of `run_on_cfg`, source lines 74–97) -/

/-- Deterministic model of collecting a `HashSet<Value>`: the distinct
elements in first-occurrence order (same cardinality and membership as the
Rust set). -/
def distinctList (l : List Value) : List Value :=
  l.foldl (fun acc v => if v ∈ acc then acc else acc ++ [v]) []

/-- `maybe_elide_phi` (source lines 256–265): the single value a phi
produces irrespective of the incoming edge, if there is one. -/
def maybeElidePhi (u : IRUnit) (inst : Inst) : Option Value :=
  match getData u inst with
  | none => none
  | some d =>
    let s := distinctList d.args
    if s.length = 1 then s.head? else none

/-- `dfg.inst_result(inst)` (`none` models the panic on an instruction
without a result). -/
def instResult (u : IRUnit) (inst : Inst) : Option Value :=
  (getData u inst).bind (·.result)

/-- Modelled from the spec (§6 mutation API):
`replace-all-uses-of-value(old, new)` scoped to the whole function
(`dfg_mut().replace_use(old, new)`). -/
def replaceUseAll (u : IRUnit) (old new : Value) : IRUnit :=
  { u with data := u.data.map fun p =>
      (p.1, { p.2 with args := p.2.args.map (fun a => if a = old then new else a) }) }

/-- Is the result value of any instruction equal to `v` used as an operand
anywhere in the function? -/
def valueUsed (u : IRUnit) (v : Value) : Bool :=
  u.data.any (fun p => v ∈ p.2.args)

/-- Modelled from the spec (§6 mutation API): `prune-if-unused(instruction)`
(`unit.prune_if_unused(inst)`): remove the instruction if its result value
has no remaining use. -/
def pruneIfUnused (u : IRUnit) (inst : Inst) : IRUnit :=
  match instResult u inst with
  | none => u
  | some r =>
    if valueUsed u r then u
    else
      ⟨u.entry, u.blockList,
       u.insts.map (fun bl => (bl.1, bl.2.filter (fun i => i ≠ inst))),
       u.data.filter (fun p => p.1 ≠ inst),
       u.nextInst, u.nextValue⟩

/-- The scan of phase B (source lines 76–86): all `(inst, with)` pairs of
elidable phis, in layout order. -/
def scanElide (u : IRUnit) : List (Inst × Value) :=
  u.blockList.foldl
    (fun acc block =>
      (blockInsts u block).foldl
        (fun acc inst =>
          match getData u inst with
          | some d =>
            if d.opcode.is_phi then
              match maybeElidePhi u inst with
              | some w => acc ++ [(inst, w)]
              | none => acc
            else acc
          | none => acc)
        acc)
    []

/-- The mutation applied to one recorded elidable phi (source lines 87–97):
redirect every use of its result to `with`, then prune it if now unused. -/
def elideApply (u : IRUnit) (inst : Inst) (w : Value) : Option IRUnit := do
  let r ← instResult u inst
  let u1 := replaceUseAll u r w
  some (pruneIfUnused u1 inst)

/-- The iteration of mutate phase B over the recorded elisions,
accumulating the `modified` flag. -/
def mutateElideGo : List (Inst × Value) → IRUnit × Bool → Option (IRUnit × Bool)
  | [], um => some um
  | p :: ps, um => do
    let u1 ← elideApply um.1 p.1 p.2
    mutateElideGo ps (u1, true)

/-- The mutate phase B of `run_on_cfg` (source lines 87–97). -/
def mutateElide (u : IRUnit) (elides : List (Inst × Value)) :
    Option (IRUnit × Bool) :=
  mutateElideGo elides (u, false)

/-! ## Dominators and the pass driver (`run_on_cfg`, source lines 25–100) -/

/-- One saturation round of the avoided-block reachability closure. -/
def reachAvoidStep (u : IRUnit) (avoid : Block) (acc : List Block) : List Block :=
  acc.foldl
    (fun a b =>
      (succsOf u b).foldl (fun a2 c => if c = avoid ∨ c ∈ a2 then a2 else a2 ++ [c]) a)
    acc

/-- The blocks reachable from entry without ever entering `avoid`. -/
def reachAvoid (u : IRUnit) (avoid : Block) : List Block :=
  if u.entry = avoid then []
  else (List.range (u.blockList.length + 1)).foldl
    (fun a _ => reachAvoidStep u avoid a) [u.entry]

/-- Modelled from the spec (§6, glossary): the pre-built `DominatorTree` —
`d` dominates `b` iff every control-flow path from entry to `b` passes
through `d` (equivalently, `b` is not reachable once `d` is removed), and
every block dominates itself. -/
def dominates (u : IRUnit) (d b : Block) : Bool :=
  d = b ∨ b ∉ reachAvoid u d

/-- Modelled from the spec (§6): `dominators(block)` — every block that
dominates `block`, including `block` itself. -/
def dominatorsOf (u : IRUnit) (b : Block) : List Block :=
  u.blockList.filter (fun d => dominates u d b)

/-- `max_by_key` over a block list, returning the last maximum (Rust
`Iterator::max_by_key` keeps the later of equal keys). -/
def maxBlockByKey (key : Block → Nat) (l : List Block) : Option Block :=
  l.foldl
    (fun best v =>
      match best with
      | none => some v
      | some b => if key b ≤ key v then some v else some b)
    none

/-- The reference-block selection of `run_on_cfg` (source lines 39–48):
among the dominators of `block` other than `block` itself, the one with
the highest numbering index (`None` = skip the block). -/
def immDomOf (u : IRUnit) (bn : List (Block × Nat)) (block : Block) : Option Block :=
  maxBlockByKey (fun bb => (lookupA bn bb).getD 0)
    ((dominatorsOf u block).filter (fun d => d ≠ block))

/-- The scan phase A of `run_on_cfg` (source lines 34–56): every phi
instruction in a block with a proper dominator, paired with its ways. -/
def scanA (u : IRUnit) : Except JErr (List (Inst × List (Value × List Cond))) :=
  u.blockList.foldlM
    (fun acc block =>
      match immDomOf u (bnFifo u) block with
      | none => .ok acc
      | some imm =>
        (blockInsts u block).foldlM
          (fun acc2 inst =>
            match getData u inst with
            | some d =>
              if d.opcode.is_phi then do
                let ways ← preparePhi u block inst imm
                .ok (acc2 ++ [(inst, ways)])
              else .ok acc2
            | none => .ok acc2)
          acc)
    []

/-- `ControlFlowSimplification::run_on_cfg` (source lines 25–100): scan
phase A, mutate phase A, then scan+mutate phase B; returns the updated
unit and the `modified` flag.  `none` models a panic anywhere in the
pass. -/
def runOnCfg (u : IRUnit) : Option (IRUnit × Bool) :=
  match scanA u with
  | .error _ => none
  | .ok pairs =>
    match mutateA u pairs with
    | none => none
    | some (u1, m1) =>
      match mutateElide u1 (scanElide u1) with
      | none => none
      | some (u2, m2) => some (u2, m1 || m2)

/-! ## Evaluation of the constructed selection trees

To state discriminator soundness we evaluate a value under an assignment
of booleans to the branch-condition values: a value defined by a `mux`
instruction selects its array's first element when the selector is false
and its second element when it is true (spec §3 `Select`, §4.3); every
other value evaluates to itself. -/

/-- The instruction data defining a value, if any. -/
def defInst (u : IRUnit) (v : Value) : Option InstData :=
  (u.data.find? (fun p => p.2.result = some v)).map (·.2)

/-- Evaluate a value under the boolean assignment `σ`. -/
def valEval (u : IRUnit) (sig : Value → Bool) : Nat → Value → Option Value
  | 0, _ => none
  | fuel + 1, v =>
    match defInst u v with
    | some d =>
      match d.opcode with
      | .mux => do
        let arrD ← defInst u (d.args.getD 0 0)
        let sel := d.args.getD 1 0
        valEval u sig fuel (if sig sel then arrD.args.getD 1 0 else arrD.args.getD 0 0)
      | _ => some v
    | none => some v

/-- Does the assignment `sig` satisfy a conjunction of conditions? -/
def satisfies (sig : Value → Bool) (conds : List Cond) : Bool :=
  conds.all fun c =>
    match c with
    | .Pos v => sig v
    | .Neg v => !sig v

/-! ## Concrete functions used by the theorems

Value handles: `1`, `2`, `3` are branch-condition booleans (called `x`,
`c`, `d` in the comments), `11`–`16` are the values merged by a phi, and
handles from `nextValue` up are allocated by the pass. -/

/-- A 14-block function whose single phi (instruction `20` in block `12`)
merges five values.  Control flow from the entry `0` (branching on value
`1`): `0 → {5 (false), 1 (true)}`; the true side `1 → {8, 2}`, `2 → {4, 3}`,
`3 → {4, 7}` branches on value `2` three times in a row (block `4` is a
dead-end self-loop); the false side `5 → {6, 9}` branches on value `3`,
then `6 → {11, 10}` branches on value `2`.  Blocks `7`–`11` branch
unconditionally to the merge block `12`, which falls through to `13`.
Because the paths through blocks `2` and `3` test value `2` repeatedly,
`uses(2) = 6` exceeds the number of ways (5), although the way entering
through block `9` never mentions value `2`. -/
def cexD : IRUnit :=
  ⟨0, [0, 1, 2, 3, 4, 5, 6, 7, 8, 9, 10, 11, 12, 13],
   [(0, [0]), (1, [1]), (2, [2]), (3, [3]), (4, [4]), (5, [5]), (6, [6]),
    (7, [7]), (8, [8]), (9, [9]), (10, [10]), (11, [11]), (12, [20, 12]), (13, [13])],
   [(0, ⟨.brCond, [1], [5, 1], none⟩),
    (1, ⟨.brCond, [2], [8, 2], none⟩),
    (2, ⟨.brCond, [2], [4, 3], none⟩),
    (3, ⟨.brCond, [2], [4, 7], none⟩),
    (4, ⟨.br, [], [4], none⟩),
    (5, ⟨.brCond, [3], [6, 9], none⟩),
    (6, ⟨.brCond, [2], [11, 10], none⟩),
    (7, ⟨.br, [], [12], none⟩),
    (8, ⟨.br, [], [12], none⟩),
    (9, ⟨.br, [], [12], none⟩),
    (10, ⟨.br, [], [12], none⟩),
    (11, ⟨.br, [], [12], none⟩),
    (12, ⟨.br, [], [13], none⟩),
    (13, ⟨.br, [], [13], none⟩),
    (20, ⟨.phi, [11, 13, 14, 15, 16], [7, 8, 9, 10, 11], some 19⟩)],
   30, 20⟩

/-- The way list `prepare_phi` produces for the phi of `cexD`. -/
def waysD : List (Value × List Cond) :=
  [(11, [.Pos 1, .Pos 2, .Pos 2, .Pos 2]),
   (13, [.Pos 1, .Neg 2]),
   (14, [.Neg 1, .Pos 3]),
   (15, [.Neg 1, .Neg 3, .Pos 2]),
   (16, [.Neg 1, .Neg 3, .Neg 2])]

/-- A 4-block function with a loop-carried merge edge: the entry `0`
branches to the merge block `1`, whose phi (instruction `10`) has incoming
edges from `0` (value `2`) and from the loop block `2` (value `3`); block
`1` branches on value `1` either back into the loop via `2` (which
returns to `1`) or to the exit self-loop `3`.  Block `2` is reachable
only through the merge's own block. -/
def cex2 : IRUnit :=
  ⟨0, [0, 1, 2, 3],
   [(0, [0]), (1, [10, 1]), (2, [2]), (3, [3])],
   [(0, ⟨.br, [], [1], none⟩),
    (1, ⟨.brCond, [1], [3, 2], none⟩),
    (2, ⟨.br, [], [1], none⟩),
    (3, ⟨.br, [], [3], none⟩),
    (10, ⟨.phi, [2, 3], [0, 2], some 7⟩)],
   20, 10⟩

/-- A 6-block function for the numbering counterexample: entry `0`
branches to `1` and `2`; `1 → 3 → 4 → 5` is a chain while `2 → 5` jumps
straight to its end; `5` self-loops. -/
def cexNum : IRUnit :=
  ⟨0, [0, 1, 2, 3, 4, 5],
   [(0, [0]), (1, [1]), (2, [2]), (3, [3]), (4, [4]), (5, [5])],
   [(0, ⟨.brCond, [9], [1, 2], none⟩),
    (1, ⟨.br, [], [3], none⟩),
    (2, ⟨.br, [], [5], none⟩),
    (3, ⟨.br, [], [4], none⟩),
    (4, ⟨.br, [], [5], none⟩),
    (5, ⟨.br, [], [5], none⟩)],
   10, 10⟩

/-- A 4-block function with self-looping blocks: `0 → 1`, `1 → {1, 2}`,
`2 → {2, 3}`, `3 → 3` (blocks `1` and `2` each branch on value `5` with
themselves as the false target).  Justifying the edge `2 → 3` against the
target `0` drives `justify_edge` to nesting depth 5 > 4 blocks. -/
def cexChain : IRUnit :=
  ⟨0, [0, 1, 2, 3],
   [(0, [0]), (1, [1]), (2, [2]), (3, [3])],
   [(0, ⟨.br, [], [1], none⟩),
    (1, ⟨.brCond, [5], [1, 2], none⟩),
    (2, ⟨.brCond, [5], [2, 3], none⟩),
    (3, ⟨.br, [], [3], none⟩)],
   10, 10⟩

/-- A single-block function with no phi: `run_on_cfg` leaves it unchanged
and reports no modification. -/
def uNoPhi : IRUnit :=
  ⟨0, [0], [(0, [0])], [(0, ⟨.br, [], [0], none⟩)], 10, 10⟩

/-- A one-block function whose "terminator" has an opcode outside
`Br`/`CondBranch`/`Suspend`, triggering the fail-fast path of
`justify_edge`. -/
def uWeird : IRUnit :=
  ⟨0, [0], [(0, [0])], [(0, ⟨.other, [], [1], none⟩)], 10, 10⟩

/-- A three-block function whose block `2` is unreachable from the entry
`0 → 1 → 1`. -/
def uUnreach : IRUnit :=
  ⟨0, [0, 1, 2], [(0, [0]), (1, [1]), (2, [2])],
   [(0, ⟨.br, [], [1], none⟩),
    (1, ⟨.br, [], [1], none⟩),
    (2, ⟨.br, [], [2], none⟩)],
   10, 10⟩

/-- A single-block function holding a trivial phi (instruction `1`, both
operands value `5`, result `6`) and a consumer (instruction `2`) of the
phi's result. -/
def uElide : IRUnit :=
  ⟨0, [0], [(0, [1, 2, 0])],
   [(1, ⟨.phi, [5, 5], [0, 0], some 6⟩),
    (2, ⟨.other, [6], [], some 7⟩),
    (0, ⟨.br, [], [0], none⟩)],
   10, 10⟩

/-- The assignment (value `3` true, everything else false) used to witness
the dropped way of `cexD`: it satisfies the conjunction `[Neg 1, Pos 3]`. -/
def sigD : Value → Bool := fun v => v == 3

/-- A block is reachable when the numbering algorithm can discover it:
it is the entry block or a successor (in the `succsOf` sense, which is
what `BlockNumbering::new` traverses) of a reachable block. -/
inductive Reachable (u : IRUnit) : Block → Prop where
  | entry : Reachable u u.entry
  | step : ∀ {b c}, Reachable u b → c ∈ succsOf u b → Reachable u c

/-- The loop invariant of the numbering worklist. -/
structure NumInv (u : IRUnit) (s : NumState) : Prop where
  pend_sub : ∀ b ∈ s.pending, b ∈ u.blockList
  done_sub : ∀ b ∈ s.done, b ∈ u.blockList
  pend_nodup : s.pending.Nodup
  done_nodup : s.done.Nodup
  disj : ∀ b ∈ s.pending, b ∉ s.done
  ord_eq : s.order = s.done
  num_done : ∀ b ∈ s.done, (lookupA s.numbers b).isSome
  num_pend : ∀ b ∈ s.pending, (lookupA s.numbers b).isSome
  num_reach : ∀ b n, lookupA s.numbers b = some n → Reachable u b
  closure : ∀ b ∈ s.done, ∀ c ∈ succsOf u b, c ∈ s.done ∨ c ∈ s.pending
  entry_in : u.entry ∈ s.done ∨ u.entry ∈ s.pending
  headP : (s.done = [] ∧ s.pending = [u.entry]) ∨ s.done.head? = some u.entry

/-- The per-edge fact of the amended numbering claim, relative to a number
table `m`: an edge whose target was already numbered when inspected keeps
that number, and an edge whose target was unnumbered gives it exactly
`srcNum + 1`. -/
def edgeOk (m : List (Block × Nat)) (ev : EdgeEv) : Prop :=
  (∀ k, ev.tgtNum = some k → lookupA m ev.tgt = some k)
  ∧ (ev.tgtNum = none → lookupA m ev.tgt = some (ev.srcNum + 1))

/-- The lexicographic order underlying `max_by_key`'s sort key. -/
def leKey (a b : Nat × Int) : Prop :=
  a.1 < b.1 ∨ (a.1 = b.1 ∧ a.2 ≤ b.2)

/-! ## Helper lemmas about association-list lookup -/

theorem lookupA_append_left {β : Type} {l : List (Nat × β)} {b : Nat} {k : β}
    (h : lookupA l b = some k) (l' : List (Nat × β)) :
    lookupA (l ++ l') b = some k := by
  unfold lookupA at h ⊢
  rw [List.find?_append]
  cases hf : l.find? (fun p => p.1 = b) with
  | none => rw [hf] at h; exact absurd h (by simp)
  | some p => rw [hf] at h; simpa [Option.or] using h

theorem lookupA_append_self {β : Type} {l : List (Nat × β)} {b : Nat}
    (h : lookupA l b = none) (k : β) :
    lookupA (l ++ [(b, k)]) b = some k := by
  unfold lookupA at h ⊢
  rw [List.find?_append]
  cases hf : l.find? (fun p => p.1 = b) with
  | none => simp [List.find?, Option.or]
  | some p => rw [hf] at h; simp at h

/-- A valid modular index selects a member of the list. -/
theorem getD_mod_mem (l : List Nat) (c : Nat) (h : l ≠ []) :
    l.getD (c % l.length) 0 ∈ l := by
  have hlen : 0 < l.length := List.length_pos.mpr h
  have hlt : c % l.length < l.length := Nat.mod_lt _ hlen
  rw [List.getD_eq_getElem?_getD, List.getElem?_eq_getElem hlt]
  exact List.getElem_mem hlt

/-! ## C5: numbering invariants over arbitrary processing orders -/

theorem numAssign_numbers_mono (block : Block) (n : Nat) (bbs : List Block) :
    ∀ me : List (Block × Nat) × List EdgeEv, ∀ b k,
      lookupA me.1 b = some k → lookupA (numAssign block n bbs me).1 b = some k := by
  induction bbs with
  | nil => intro me b k h; exact h
  | cons bb bbs ih =>
    intro me b k h
    unfold numAssign
    apply ih
    by_cases hs : (lookupA me.1 bb).isSome
    · simpa [hs]
    · simp only [hs, Bool.false_eq_true, if_false]
      exact lookupA_append_left h _

theorem numStep_numbers_mono (u : IRUnit) (c : Nat) (s : NumState) (b : Block) (k : Nat)
    (h : lookupA s.numbers b = some k) :
    lookupA (numStep u c s).numbers b = some k := by
  by_cases hp : s.pending.isEmpty
  · simpa [numStep, hp] using h
  · simp only [numStep, hp, Bool.false_eq_true, if_false]
    exact numAssign_numbers_mono _ _ _ _ _ _ h

theorem numRun_numbers_mono (u : IRUnit) (cs : List Nat) :
    ∀ s b k, lookupA s.numbers b = some k →
      lookupA (numRun u cs s).numbers b = some k := by
  induction cs with
  | nil => intro s b k h; exact h
  | cons c cs ih =>
    intro s b k h
    exact ih _ _ _ (numStep_numbers_mono u c s b k h)

theorem numAssign_edgeOk (block : Block) (n : Nat) (bbs : List Block) :
    ∀ me : List (Block × Nat) × List EdgeEv,
      (∀ ev ∈ me.2, edgeOk me.1 ev) →
      ∀ ev ∈ (numAssign block n bbs me).2, edgeOk (numAssign block n bbs me).1 ev := by
  induction bbs with
  | nil => intro me h; exact h
  | cons bb bbs ih =>
    intro me h
    unfold numAssign
    apply ih
    intro ev hev
    rcases List.mem_append.mp hev with hold | hnew
    · -- an edge recorded earlier: the table only grows
      rcases h ev hold with ⟨h1, h2⟩
      by_cases hs : (lookupA me.1 bb).isSome
      · simp only [hs, if_true]
        exact ⟨h1, h2⟩
      · simp only [hs, Bool.false_eq_true, if_false]
        exact ⟨fun k hk => lookupA_append_left (h1 k hk) _,
               fun hn => lookupA_append_left (h2 hn) _⟩
    · -- the edge recorded at this inspection
      have hev' : ev = ⟨block, bb, n, lookupA me.1 bb⟩ := by
        simpa using hnew
      subst hev'
      by_cases hs : (lookupA me.1 bb).isSome
      · simp only [hs, if_true]
        refine ⟨fun k' hk' => hk', fun hn => ?_⟩
        dsimp only at hn
        rw [hn] at hs
        simp at hs
      · simp only [hs, Bool.false_eq_true, if_false]
        have hnone : lookupA me.1 bb = none := Option.not_isSome_iff_eq_none.mp (by simpa using hs)
        refine ⟨fun k' hk' => ?_, fun _ => lookupA_append_self hnone _⟩
        rw [hnone] at hk'
        cases hk'

theorem numStep_edgeOk (u : IRUnit) (c : Nat) (s : NumState)
    (h : ∀ ev ∈ s.edges, edgeOk s.numbers ev) :
    ∀ ev ∈ (numStep u c s).edges, edgeOk (numStep u c s).numbers ev := by
  by_cases hp : s.pending.isEmpty
  · simpa [numStep, hp] using h
  · simp only [numStep, hp, Bool.false_eq_true, if_false]
    exact numAssign_edgeOk _ _ _ _ h

theorem numRun_edgeOk (u : IRUnit) (cs : List Nat) :
    ∀ s, (∀ ev ∈ s.edges, edgeOk s.numbers ev) →
      ∀ ev ∈ (numRun u cs s).edges, edgeOk (numRun u cs s).numbers ev := by
  induction cs with
  | nil => intro s h; exact h
  | cons c cs ih =>
    intro s h
    exact ih _ (numStep_edgeOk u c s h)

/-- C5 (counterexample): the numbering worklist draws from an unordered
set, and an adversarial-but-legal processing order on the six-block
function `cexNum` (process block 1's chain before block 2) traverses the
edge `2 → 5` after block 5 has already received number 4 while block 2
has number 1 — so `number(target) ≤ number(source) + 1` fails for a
traversed edge.  Entry numbering and first-assignment-wins still hold;
only the per-edge bound of the claim is refuted. -/
theorem cfs_C5_counterexample :
    (⟨2, 5, 1, some 4⟩ : EdgeEv) ∈ (numRun cexNum [0, 0, 1, 1, 0, 0] (initNum cexNum)).edges
    ∧ lookupA (numRun cexNum [0, 0, 1, 1, 0, 0] (initNum cexNum)).numbers 2 = some 1
    ∧ lookupA (numRun cexNum [0, 0, 1, 1, 0, 0] (initNum cexNum)).numbers 5 = some 4
    ∧ ¬(4 ≤ 1 + 1) :=
  ⟨by decide, by rfl, by rfl, by decide⟩

/-- C5 (amended): for every processing order of the worklist, the entry
block keeps number 0, a number once assigned is never overwritten, and
every traversed edge whose target was unnumbered at traversal time gives
the target exactly `number(source) + 1` (hence satisfies the bound
`number(target) ≤ number(source) + 1`); the bound for edges whose target
was already numbered holds for the breadth-first order recommended by the
spec but not for arbitrary orders (see the counterexample). -/
theorem cfs_C5_amended (u : IRUnit) (cs : List Nat) :
    lookupA (numRun u cs (initNum u)).numbers u.entry = some 0
    ∧ (∀ s b k, lookupA s.numbers b = some k →
        lookupA (numRun u cs s).numbers b = some k)
    ∧ (∀ ev ∈ (numRun u cs (initNum u)).edges,
        edgeOk (numRun u cs (initNum u)).numbers ev) := by
  refine ⟨?_, numRun_numbers_mono u cs, ?_⟩
  · apply numRun_numbers_mono
    simp [initNum, lookupA, List.find?]
  · apply numRun_edgeOk
    intro ev hev
    simp [initNum] at hev

/-- Witness for `cfs_C5_amended`: on `cexNum` with the adversarial order,
the freshly discovered edge `0 → 1` gives block 1 the number `0 + 1`. -/
theorem cfs_C5_amended_witness :
    lookupA (numRun cexNum [0, 0, 1, 1, 0, 0] (initNum cexNum)).numbers 1 = some 1 :=
  ((cfs_C5_amended cexNum [0, 0, 1, 1, 0, 0]).2.2 ⟨0, 1, 0, none⟩ (by decide)).2 rfl

/-! ## C10: the numbering's partiality is exactly unreachability -/

theorem mem_addPend (done : List Block) (bbs : List Block) :
    ∀ p x, x ∈ addPend done bbs p ↔ x ∈ p ∨ (x ∈ bbs ∧ x ∉ done) := by
  induction bbs with
  | nil => intro p x; simp [addPend]
  | cons bb bbs ih =>
    intro p x
    unfold addPend
    rw [ih]
    by_cases hd : bb ∈ done ∨ bb ∈ p
    · simp only [hd, if_true]
      constructor
      · rintro (hx | hx)
        · exact Or.inl hx
        · exact Or.inr ⟨List.mem_cons_of_mem _ hx.1, hx.2⟩
      · rintro (hx | ⟨hx1, hx2⟩)
        · exact Or.inl hx
        · rcases List.mem_cons.mp hx1 with rfl | hx1
          · rcases hd with hd | hd
            · exact absurd hd hx2
            · exact Or.inl hd
          · exact Or.inr ⟨hx1, hx2⟩
    · simp only [hd, if_false]
      push_neg at hd
      constructor
      · rintro (hx | hx)
        · rcases List.mem_append.mp hx with hx | hx
          · exact Or.inl hx
          · rcases List.mem_singleton.mp hx with rfl
            exact Or.inr ⟨List.mem_cons_self _ _, hd.1⟩
        · exact Or.inr ⟨List.mem_cons_of_mem _ hx.1, hx.2⟩
      · rintro (hx | ⟨hx1, hx2⟩)
        · exact Or.inl (List.mem_append_left _ hx)
        · rcases List.mem_cons.mp hx1 with rfl | hx1
          · exact Or.inl (List.mem_append_right _ (List.mem_singleton.mpr rfl))
          · exact Or.inr ⟨hx1, hx2⟩

theorem nodup_addPend (done : List Block) (bbs : List Block) :
    ∀ p, p.Nodup → (addPend done bbs p).Nodup := by
  induction bbs with
  | nil => intro p hp; exact hp
  | cons bb bbs ih =>
    intro p hp
    unfold addPend
    apply ih
    by_cases hd : bb ∈ done ∨ bb ∈ p
    · simpa [hd] using hp
    · simp only [hd, if_false]
      push_neg at hd
      simpa [List.nodup_append] using ⟨hp, hd.2⟩

theorem numAssign_isSome_mono (block : Block) (n : Nat) (bbs : List Block)
    (me : List (Block × Nat) × List EdgeEv) (b : Block)
    (h : (lookupA me.1 b).isSome) :
    (lookupA (numAssign block n bbs me).1 b).isSome := by
  rcases Option.isSome_iff_exists.mp h with ⟨k, hk⟩
  rw [numAssign_numbers_mono block n bbs me b k hk]
  rfl

theorem numAssign_isSome_of_mem (block : Block) (n : Nat) (bbs : List Block) :
    ∀ me, ∀ bb ∈ bbs, (lookupA (numAssign block n bbs me).1 bb).isSome := by
  induction bbs with
  | nil => intro me bb h; cases h
  | cons x xs ih =>
    intro me bb hbb
    rcases List.mem_cons.mp hbb with rfl | hbb
    · unfold numAssign
      apply numAssign_isSome_mono
      by_cases hs : (lookupA me.1 bb).isSome
      · simp [hs]
      · simp only [hs, Bool.false_eq_true, if_false]
        have hnone : lookupA me.1 bb = none := Option.not_isSome_iff_eq_none.mp (by simpa using hs)
        rw [lookupA_append_self hnone]
        rfl
    · unfold numAssign
      exact ih _ bb hbb

theorem lookupA_single_cases {β : Type} {x b : Nat} {k0 k : β}
    (h : lookupA [(x, k0)] b = some k) : b = x ∧ k = k0 := by
  unfold lookupA at h
  by_cases hx : x = b
  · subst hx
    simp [List.find?] at h
    exact ⟨rfl, h.symm⟩
  · simp [List.find?, hx] at h

theorem lookupA_append_single_cases {β : Type} {l : List (Nat × β)} {x b : Nat} {k0 k : β}
    (h : lookupA (l ++ [(x, k0)]) b = some k) :
    lookupA l b = some k ∨ (b = x ∧ k = k0) := by
  unfold lookupA at h ⊢
  rw [List.find?_append] at h
  cases hf : l.find? (fun p => p.1 = b) with
  | some q =>
    rw [hf] at h
    simp [Option.or] at h
    exact Or.inl (by simpa using h)
  | none =>
    rw [hf] at h
    simp only [Option.none_or] at h
    exact Or.inr (lookupA_single_cases (show lookupA [(x, k0)] b = some k from h))

theorem numAssign_numbers_sub (block : Block) (n : Nat) (bbs : List Block) :
    ∀ me b k, lookupA (numAssign block n bbs me).1 b = some k →
      lookupA me.1 b = some k ∨ b ∈ bbs := by
  induction bbs with
  | nil => intro me b k h; exact Or.inl h
  | cons x xs ih =>
    intro me b k h
    unfold numAssign at h
    rcases ih _ b k h with h1 | h1
    · by_cases hs : (lookupA me.1 x).isSome
      · rw [if_pos hs] at h1
        exact Or.inl h1
      · simp only [hs, Bool.false_eq_true, if_false] at h1
        rcases lookupA_append_single_cases h1 with h2 | ⟨rfl, _⟩
        · exact Or.inl h2
        · exact Or.inr (List.mem_cons_self _ _)
    · exact Or.inr (List.mem_cons_of_mem _ h1)

theorem head?_append_left {α : Type} (l l' : List α) (h : l ≠ []) :
    (l ++ l').head? = l.head? := by
  cases l with
  | nil => exact absurd rfl h
  | cons a as => rfl

theorem numInv_init (u : IRUnit) (hentry : u.entry ∈ u.blockList) :
    NumInv u (initNum u) where
  pend_sub := by
    intro b hb
    rcases List.mem_singleton.mp hb with rfl
    exact hentry
  done_sub := by intro b hb; cases hb
  pend_nodup := List.nodup_singleton _
  done_nodup := List.nodup_nil
  disj := by intro b _ hb; cases hb
  ord_eq := rfl
  num_done := by intro b hb; cases hb
  num_pend := by
    intro b hb
    rcases List.mem_singleton.mp hb with rfl
    simp [initNum, lookupA, List.find?]
  num_reach := by
    intro b n h
    rcases lookupA_single_cases h with ⟨rfl, _⟩
    exact Reachable.entry
  closure := by intro b hb; cases hb
  entry_in := Or.inr (List.mem_singleton.mpr rfl)
  headP := Or.inl ⟨rfl, rfl⟩

theorem numInv_step_cons (u : IRUnit) (s : NumState) (block : Block)
    (hbmem : block ∈ s.pending)
    (hsucc : ∀ b ∈ u.blockList, ∀ x ∈ succsOf u b, x ∈ u.blockList)
    (hinv : NumInv u s) :
    NumInv u
      ⟨(numAssign block ((lookupA s.numbers block).getD 0) (succsOf u block)
          (s.numbers, s.edges)).1,
       s.order ++ [block], s.done ++ [block],
       addPend (s.done ++ [block]) (succsOf u block) (s.pending.erase block),
       (numAssign block ((lookupA s.numbers block).getD 0) (succsOf u block)
          (s.numbers, s.edges)).2⟩ := by
  have bmem_bl : block ∈ u.blockList := hinv.pend_sub _ hbmem
  have bnotdone : block ∉ s.done := hinv.disj _ hbmem
  have succs_bl : ∀ y ∈ succsOf u block, y ∈ u.blockList := hsucc block bmem_bl
  have breach : Reachable u block := by
    rcases Option.isSome_iff_exists.mp (hinv.num_pend block hbmem) with ⟨n, hn⟩
    exact hinv.num_reach block n hn
  have mem_erase_char : ∀ x, x ∈ s.pending.erase block → x ∈ s.pending ∧ x ≠ block := by
    intro x hx
    refine ⟨List.mem_of_mem_erase hx, ?_⟩
    rintro rfl
    exact (hinv.pend_nodup.not_mem_erase) hx
  refine
    { pend_sub := ?_, done_sub := ?_, pend_nodup := ?_, done_nodup := ?_,
      disj := ?_, ord_eq := ?_, num_done := ?_, num_pend := ?_,
      num_reach := ?_, closure := ?_, entry_in := ?_, headP := ?_ }
  · intro b hb
    rcases (mem_addPend _ _ _ b).mp hb with hb | hb
    · exact hinv.pend_sub _ (mem_erase_char b hb).1
    · exact succs_bl _ hb.1
  · intro b hb
    rcases List.mem_append.mp hb with hb | hb
    · exact hinv.done_sub _ hb
    · have hbe : b = block := List.mem_singleton.mp hb
      rw [hbe]
      exact bmem_bl
  · exact nodup_addPend _ _ _ (hinv.pend_nodup.erase _)
  · simpa [List.nodup_append] using ⟨hinv.done_nodup, bnotdone⟩
  · intro b hb
    intro hbd
    rcases (mem_addPend _ _ _ b).mp hb with hb | hb
    · rcases mem_erase_char b hb with ⟨hb1, hb2⟩
      rcases List.mem_append.mp hbd with hbd | hbd
      · exact hinv.disj _ hb1 hbd
      · exact hb2 (List.mem_singleton.mp hbd)
    · exact hb.2 hbd
  · rw [hinv.ord_eq]
  · intro b hb
    rcases List.mem_append.mp hb with hb | hb
    · exact numAssign_isSome_mono _ _ _ _ _ (hinv.num_done _ hb)
    · have hbe : b = block := List.mem_singleton.mp hb
      rw [hbe]
      exact numAssign_isSome_mono _ _ _ _ _ (hinv.num_pend _ hbmem)
  · intro b hb
    rcases (mem_addPend _ _ _ b).mp hb with hb | hb
    · exact numAssign_isSome_mono _ _ _ _ _ (hinv.num_pend _ (mem_erase_char b hb).1)
    · exact numAssign_isSome_of_mem _ _ _ _ _ hb.1
  · intro b n h
    rcases numAssign_numbers_sub _ _ _ _ _ _ h with h | h
    · exact hinv.num_reach _ _ h
    · exact Reachable.step breach h
  · intro b hb y hy
    rcases List.mem_append.mp hb with hb | hb
    · rcases hinv.closure b hb y hy with hc | hc
      · exact Or.inl (List.mem_append_left _ hc)
      · by_cases hyb : y = block
        · exact Or.inl (List.mem_append_right _ (List.mem_singleton.mpr hyb))
        · refine Or.inr ((mem_addPend _ _ _ y).mpr (Or.inl ?_))
          exact (List.mem_erase_of_ne hyb).mpr hc
    · have hbe : b = block := List.mem_singleton.mp hb
      rw [hbe] at hy
      by_cases hyd : y ∈ s.done ++ [block]
      · exact Or.inl hyd
      · exact Or.inr ((mem_addPend _ _ _ y).mpr (Or.inr ⟨hy, hyd⟩))
  · rcases hinv.entry_in with he | he
    · exact Or.inl (List.mem_append_left _ he)
    · by_cases heb : u.entry = block
      · exact Or.inl (List.mem_append_right _ (List.mem_singleton.mpr heb))
      · refine Or.inr ((mem_addPend _ _ _ _).mpr (Or.inl ?_))
        exact (List.mem_erase_of_ne heb).mpr he
  · rcases hinv.headP with ⟨hd, hpend⟩ | hd
    · have hbe : block = u.entry := by
        rw [hpend] at hbmem
        exact List.mem_singleton.mp hbmem
      right
      rw [hd, hbe]
      rfl
    · right
      rw [head?_append_left]
      · exact hd
      · intro hnil
        rw [hnil] at hd
        cases hd

theorem numInv_step (u : IRUnit) (c : Nat) (s : NumState)
    (hsucc : ∀ b ∈ u.blockList, ∀ x ∈ succsOf u b, x ∈ u.blockList)
    (hinv : NumInv u s) : NumInv u (numStep u c s) := by
  by_cases he : s.pending.isEmpty
  · simpa [numStep, he] using hinv
  · have hne : s.pending ≠ [] := by simpa [List.isEmpty_iff] using he
    simp only [numStep, he, Bool.false_eq_true, if_false]
    exact numInv_step_cons u s _ (getD_mod_mem _ c hne) hsucc hinv

theorem numInv_run (u : IRUnit) (cs : List Nat)
    (hsucc : ∀ b ∈ u.blockList, ∀ x ∈ succsOf u b, x ∈ u.blockList) :
    ∀ s, NumInv u s → NumInv u (numRun u cs s) := by
  induction cs with
  | nil => intro s h; exact h
  | cons c cs ih => intro s h; exact ih _ (numInv_step u c s hsucc h)

theorem numRun_of_pending_empty (u : IRUnit) (cs : List Nat) :
    ∀ s : NumState, s.pending = [] → numRun u cs s = s := by
  induction cs with
  | nil => intro s _; rfl
  | cons c cs ih =>
    intro s h
    have hstep : numStep u c s = s := by simp [numStep, h]
    show numRun u cs (numStep u c s) = s
    rw [hstep]
    exact ih s h

theorem numRun_completes (u : IRUnit) (cs : List Nat)
    (hsucc : ∀ b ∈ u.blockList, ∀ x ∈ succsOf u b, x ∈ u.blockList) :
    ∀ s, NumInv u s → u.blockList.length + 1 ≤ cs.length + s.done.length →
      (numRun u cs s).pending = [] := by
  induction cs with
  | nil =>
    intro s hinv hlen
    exfalso
    have h1 : s.done.toFinset.card = s.done.length := List.toFinset_card_of_nodup hinv.done_nodup
    have h2 : s.done.toFinset ⊆ u.blockList.toFinset := by
      intro b hb
      exact List.mem_toFinset.mpr (hinv.done_sub b (List.mem_toFinset.mp hb))
    have h3 : s.done.length ≤ u.blockList.length :=
      h1 ▸ le_trans (Finset.card_le_card h2) (List.toFinset_card_le _)
    simp only [List.length_nil] at hlen
    omega
  | cons c cs ih =>
    intro s hinv hlen
    by_cases he : s.pending.isEmpty
    · have hemp : s.pending = [] := by simpa [List.isEmpty_iff] using he
      rw [numRun_of_pending_empty u _ s hemp]
      exact hemp
    · have hdone : (numStep u c s).done = s.done ++ [s.pending.getD (c % s.pending.length) 0] := by
        simp [numStep, he]
      show (numRun u cs (numStep u c s)).pending = []
      apply ih _ (numInv_step u c s hsucc hinv)
      rw [hdone]
      simp only [List.length_append, List.length_singleton, List.length_cons] at hlen ⊢
      omega

/-- C10 (confirmed): after a completed run of the numbering worklist (any
processing order, enough iterations), `get_number` returns `Some` for a
block exactly when the block is reachable from the entry block (so
`number()` and `Index`, which panic on a missing entry, are partial
exactly on unreachable blocks), and the visitation order starts with the
entry block and contains each reachable block exactly once. -/
theorem cfs_C10_numbering_partiality (u : IRUnit) (cs : List Nat)
    (hentry : u.entry ∈ u.blockList)
    (hsucc : ∀ b ∈ u.blockList, ∀ x ∈ succsOf u b, x ∈ u.blockList)
    (hlen : u.blockList.length + 1 ≤ cs.length) :
    (∀ b, (lookupA (numRun u cs (initNum u)).numbers b).isSome ↔ Reachable u b)
    ∧ (numRun u cs (initNum u)).order.head? = some u.entry
    ∧ (numRun u cs (initNum u)).order.Nodup
    ∧ (∀ b, b ∈ (numRun u cs (initNum u)).order ↔ Reachable u b) := by
  have hinv : NumInv u (numRun u cs (initNum u)) :=
    numInv_run u cs hsucc _ (numInv_init u hentry)
  have hpend : (numRun u cs (initNum u)).pending = [] := by
    apply numRun_completes u cs hsucc _ (numInv_init u hentry)
    simpa [initNum] using hlen
  have hdone_entry : u.entry ∈ (numRun u cs (initNum u)).done := by
    rcases hinv.entry_in with h | h
    · exact h
    · rw [hpend] at h
      cases h
  have hclosed : ∀ b ∈ (numRun u cs (initNum u)).done,
      ∀ y ∈ succsOf u b, y ∈ (numRun u cs (initNum u)).done := by
    intro b hb y hy
    rcases hinv.closure b hb y hy with h | h
    · exact h
    · rw [hpend] at h
      cases h
  have hreach_done : ∀ b, Reachable u b → b ∈ (numRun u cs (initNum u)).done := by
    intro b hb
    induction hb with
    | entry => exact hdone_entry
    | step hb hy ih => exact hclosed _ ih _ hy
  refine ⟨?_, ?_, ?_, ?_⟩
  · intro b
    constructor
    · intro h
      rcases Option.isSome_iff_exists.mp h with ⟨n, hn⟩
      exact hinv.num_reach b n hn
    · intro h
      exact hinv.num_done b (hreach_done b h)
  · rcases hinv.headP with ⟨_, hpd⟩ | hd
    · rw [hpd] at hpend
      cases hpend
    · rw [hinv.ord_eq]
      exact hd
  · rw [hinv.ord_eq]
    exact hinv.done_nodup
  · intro b
    rw [hinv.ord_eq]
    constructor
    · intro h
      rcases Option.isSome_iff_exists.mp (hinv.num_done b h) with ⟨n, hn⟩
      exact hinv.num_reach b n hn
    · exact hreach_done b

/-- Witness for `cfs_C10_numbering_partiality` on `uUnreach`: block `1` is
numbered because it is reachable, and block `2` is not reachable (its
lookup is `none`). -/
theorem cfs_C10_numbering_partiality_witness :
    (lookupA (numRun uUnreach [0, 0, 0, 0] (initNum uUnreach)).numbers 1).isSome = true
    ∧ ¬ Reachable uUnreach 2 := by
  have h := cfs_C10_numbering_partiality uUnreach [0, 0, 0, 0] (by decide) (by decide) (by decide)
  constructor
  · exact (h.1 1).mpr (Reachable.step Reachable.entry (by decide))
  · intro hr
    exact absurd ((h.1 2).mpr hr) (by decide)

/-! ## C7: edge-condition classification and fail-fast on weird terminators -/

/-- C7 (confirmed): during edge justification a `Br`, `Wait` or `WaitTime`
terminator yields no condition; a `BrCond` yields `Neg(selector)` when the
edge target is its false-target and `Pos(selector)` when it is its
true-target; any other terminator kind is fatal — `edgeCond` reports the
`unreachable!` panic and `justify_edge` aborts with it instead of
recovering. -/
theorem cfs_C7_edge_conditions (d : InstData) (b : Block) :
    ((d.opcode = .br ∨ d.opcode = .wait ∨ d.opcode = .waitTime) →
      edgeCond d b = some none)
    ∧ (∀ sel rest b0 b1 rest', d.opcode = .brCond → d.args = sel :: rest →
        d.blocks = b0 :: b1 :: rest' →
        (b0 = b → edgeCond d b = some (some (Cond.Neg sel)))
        ∧ (b0 ≠ b → b1 = b → edgeCond d b = some (some (Cond.Pos sel))))
    ∧ ((d.opcode = .phi ∨ d.opcode = .arr ∨ d.opcode = .mux ∨ d.opcode = .other) →
        edgeCond d b = none)
    ∧ (∀ u fuel frm target seen, getTermData u frm = some d → edgeCond d b = none →
        justifyEdgeF u (fuel + 1) frm b target seen = .error .weirdTerm) := by
  refine ⟨?_, ?_, ?_, ?_⟩
  · rintro (h | h | h) <;> simp [edgeCond, h]
  · intro sel rest b0 b1 rest' hop hargs hblocks
    constructor
    · intro hb0
      simp [edgeCond, hop, hargs, hblocks, hb0]
    · intro hb0 hb1
      simp [edgeCond, hop, hargs, hblocks, hb0, hb1]
  · rintro (h | h | h | h) <;> simp [edgeCond, h]
  · intro u fuel frm target seen hterm hcond
    simp [justifyEdgeF, hterm, hcond]

/-- Witness for `cfs_C7_edge_conditions`: the `BrCond` terminator of block
`0` of `cex2` (selector `1`, false-target `3`, true-target `2`) yields
`Pos 1` for the edge into block `2`, and the out-of-scope terminator of
`uWeird` aborts justification with the fatal error. -/
theorem cfs_C7_edge_conditions_witness :
    edgeCond ⟨.brCond, [1], [3, 2], none⟩ 2 = some (some (Cond.Pos 1))
    ∧ justifyEdgeF uWeird 5 0 1 9 [] = .error .weirdTerm := by
  constructor
  · exact ((cfs_C7_edge_conditions ⟨.brCond, [1], [3, 2], none⟩ 2).2.1
      1 [] 3 2 [] rfl rfl rfl).2 (by decide) rfl
  · exact (cfs_C7_edge_conditions ⟨.other, [], [1], none⟩ 1).2.2.2 uWeird 4 0 9 [] (by rfl) (by decide)

/-! ## C8: termination of `justify_edge` -/

/-- C8 (counterexample): on the 4-block function `cexChain`, justifying
the edge `2 → 3` against target `0` exhausts a fuel of 4 — i.e. the
recursion nests more than 4 = number-of-blocks invocations deep (each
invocation consumes exactly one unit of fuel), because the self-loop
predecessors re-enter blocks as `justify(b, b)` calls that push a block
already on the stack.  With ample fuel the same search terminates
normally, returning the four enumerated routes. -/
theorem cfs_C8_counterexample :
    justifyEdgeF cexChain 4 2 3 0 [] = .error .outOfFuel
    ∧ justifyEdgeF cexChain 20 2 3 0 [] =
        .ok [[Cond.Pos 5, Cond.Pos 5],
             [Cond.Neg 5, Cond.Pos 5, Cond.Pos 5],
             [Cond.Pos 5, Cond.Neg 5, Cond.Pos 5],
             [Cond.Neg 5, Cond.Pos 5, Cond.Neg 5, Cond.Pos 5]]
    ∧ cexChain.blockList.length = 4 :=
  ⟨by rfl, by rfl, by rfl⟩

theorem countP_split {α : Type} (l : List α) (p q : α → Prop)
    [DecidablePred p] [DecidablePred q] :
    l.countP (fun a => p a) =
      l.countP (fun a => p a ∧ q a) + l.countP (fun a => p a ∧ ¬ q a) := by
  induction l with
  | nil => rfl
  | cons a as ih =>
    by_cases hp : p a <;> by_cases hq : q a <;>
      simp [List.countP_cons, hp, hq, ih] <;> omega

theorem foldlM_routes_ne_outOfFuel (u : IRUnit) (fuel : Nat) (frm target : Block)
    (seen' : List Block) (cond : Option Cond) :
    ∀ (l : List Block) (init : List (List Cond)),
      (∀ bb ∈ l, bb ∉ seen' → justifyEdgeF u fuel bb frm target seen' ≠ .error .outOfFuel) →
      (l.foldlM (fun routes bb =>
          if bb ∈ seen' then Except.ok routes
          else do
            let rs ← justifyEdgeF u fuel bb frm target seen'
            Except.ok (routes ++ rs.map (fun r => r ++ cond.toList)))
        init : Except JErr (List (List Cond))) ≠ .error .outOfFuel := by
  intro l
  induction l with
  | nil =>
    intro init _ h
    cases h
  | cons bb bbs ih =>
    intro init hall
    rw [List.foldlM_cons]
    by_cases hmem : bb ∈ seen'
    · simp only [hmem, if_true]
      exact ih init (fun x hx => hall x (List.mem_cons_of_mem _ hx))
    · simp only [hmem, if_false]
      cases hj : justifyEdgeF u fuel bb frm target seen' with
      | error e =>
        intro hcontra
        cases e with
        | outOfFuel => exact hall bb (List.mem_cons_self _ _) hmem hj
        | weirdTerm => simp [bind, Except.bind] at hcontra
      | ok rs =>
        simp only [bind, Except.bind]
        exact ih _ (fun x hx => hall x (List.mem_cons_of_mem _ hx))

theorem justify_fuel_sufficient (u : IRUnit) :
    ∀ fuel frm dst target seen, frm ∉ seen → frm ∈ u.blockList →
      2 * (u.blockList.filter (fun b => b ∉ seen ∧ b ≠ dst)).length
          + (if frm = dst then 1 else 0) + 1 ≤ fuel →
      justifyEdgeF u fuel frm dst target seen ≠ .error .outOfFuel := by
  intro fuel
  induction fuel with
  | zero =>
    intro frm dst target seen _ _ hle
    omega
  | succ fuel ih =>
    intro frm dst target seen hfs hfb hle
    rw [justifyEdgeF]
    cases ht : getTermData u frm with
    | none => simp
    | some d =>
      cases hc : edgeCond d dst with
      | none => simp [hc]
      | some cond =>
        simp only [hc]
        by_cases hft : frm = target
        · simp [hft]
        · simp only [hft, if_false]
          apply foldlM_routes_ne_outOfFuel
          intro bb hbbl hbbs
          have hbbBL : bb ∈ u.blockList := List.mem_of_mem_filter hbbl
          apply ih bb frm target (seen ++ [dst]) hbbs hbbBL
          by_cases hfd : frm = dst
          · -- self-edge call (frm = dst): the filtered sets coincide
            subst hfd
            have hco : (u.blockList.filter (fun b => b ∉ (seen ++ [frm]) ∧ b ≠ frm)).length
                = (u.blockList.filter (fun b => b ∉ seen ∧ b ≠ frm)).length := by
              rw [← List.countP_eq_length_filter, ← List.countP_eq_length_filter]
              apply List.countP_congr
              intro x _
              constructor
              · intro hx
                simp only [decide_eq_true_eq] at hx ⊢
                refine ⟨fun hmem => hx.1 (List.mem_append_left _ hmem), hx.2⟩
              · intro hx
                simp only [decide_eq_true_eq] at hx ⊢
                refine ⟨fun hmem => ?_, hx.2⟩
                rcases List.mem_append.mp hmem with hm | hm
                · exact hx.1 hm
                · exact hx.2 (List.mem_singleton.mp hm)
            have hbne : bb ≠ frm := fun hEq => hbbs (hEq ▸ List.mem_append_right _ (List.mem_singleton.mpr rfl))
            rw [hco, if_neg hbne]
            rw [if_pos rfl] at hle
            omega
          · -- ordinary call: frm leaves the candidate set
            have hsub : ∀ x ∈ u.blockList,
                (decide (x ∉ (seen ++ [dst]) ∧ x ≠ frm)) = true →
                (decide ((x ∉ seen ∧ x ≠ dst) ∧ x ≠ frm)) = true := by
              intro x _ hx
              simp only [decide_eq_true_eq] at hx ⊢
              refine ⟨⟨fun hmem => hx.1 (List.mem_append_left _ hmem), fun hEq => ?_⟩, hx.2⟩
              exact hx.1 (hEq ▸ List.mem_append_right _ (List.mem_singleton.mpr rfl))
            have h1 : (u.blockList.filter (fun b => b ∉ (seen ++ [dst]) ∧ b ≠ frm)).length
                ≤ u.blockList.countP (fun b => (b ∉ seen ∧ b ≠ dst) ∧ b ≠ frm) := by
              rw [← List.countP_eq_length_filter]
              exact List.countP_mono_left hsub
            have h2 : u.blockList.countP (fun b => b ∉ seen ∧ b ≠ dst)
                = u.blockList.countP (fun b => (b ∉ seen ∧ b ≠ dst) ∧ b = frm)
                  + u.blockList.countP (fun b => (b ∉ seen ∧ b ≠ dst) ∧ ¬ (b = frm)) :=
              countP_split u.blockList (fun b => b ∉ seen ∧ b ≠ dst) (fun b => b = frm)
            have h3 : 0 < u.blockList.countP (fun b => (b ∉ seen ∧ b ≠ dst) ∧ b = frm) := by
              apply List.countP_pos_iff.mpr
              exact ⟨frm, hfb, by simp [hfs, hfd]⟩
            have h4 : u.blockList.countP (fun b => (b ∉ seen ∧ b ≠ dst) ∧ ¬ (b = frm))
                = u.blockList.countP (fun b => (b ∉ seen ∧ b ≠ dst) ∧ b ≠ frm) := by
              apply List.countP_congr
              intro x _
              simp
            have h5 : (u.blockList.filter (fun b => b ∉ seen ∧ b ≠ dst)).length
                = u.blockList.countP (fun b => b ∉ seen ∧ b ≠ dst) := by
              rw [List.countP_eq_length_filter]
            split <;> omega

/-- C8 (amended): `justify_edge` terminates on every finite CFG, cyclic
ones included — a predecessor already on the `seen` stack is never
revisited, and the recursion depth (one fuel unit per nested invocation)
is bounded by `2·(number of blocks) + 2`; the claim's bound of
number-of-blocks alone is too small because a self-loop predecessor is
re-entered once as a `justify(b, b)` call whose child pushes a block
already on the stack (see the counterexample). -/
theorem cfs_C8_amended (u : IRUnit) (fuel : Nat) (frm dst target : Block)
    (hfb : frm ∈ u.blockList)
    (hfuel : 2 * u.blockList.length + 2 ≤ fuel) :
    justifyEdgeF u fuel frm dst target [] ≠ .error .outOfFuel := by
  apply justify_fuel_sufficient u fuel frm dst target [] (by simp) hfb
  have hfl : (u.blockList.filter
      (fun b => b ∉ ([] : List Block) ∧ b ≠ dst)).length ≤ u.blockList.length :=
    List.length_filter_le _ _
  by_cases hfd : frm = dst
  · rw [if_pos hfd]
    omega
  · rw [if_neg hfd]
    omega

/-- Witness for `cfs_C8_amended`: justifying the edge `2 → 3` of
`cexChain` with fuel `2·4 + 2` does not run out of fuel. -/
theorem cfs_C8_amended_witness :
    justifyEdgeF cexChain 10 2 3 0 [] ≠ .error .outOfFuel :=
  cfs_C8_amended cexChain 10 2 3 0 (by decide) (by decide)

/-! ## C2: loop-carried merge edges are tolerated -/

/-- C2 (confirmed): on `cex2` the merge in block `1` has an incoming edge
from block `2`, which is reachable only through the merge's own block;
justifying that edge returns no route (the cycle guard skips block `1`,
which is already on the stack), the scan records only the way of the other
edge, and the whole pass completes without any fatal error — the partial
coverage is silently tolerated. -/
theorem cfs_C2_loop_edge_no_crash :
    justifyEdgeF cex2 10 2 1 0 [] = .ok []
    ∧ scanA cex2 = .ok [(10, [(2, [])])]
    ∧ (runOnCfg cex2).isSome = true :=
  ⟨by rfl, by rfl, by rfl⟩

/-! ## C3: the modification flag and idempotence -/

/-- C3 (counterexample): `run_on_cfg` on `cex2` performs no mutation at
all — the returned unit is the input unit — yet reports `true`, because
`modified |= true` fires for every recorded phi even when the rewrite
`replace_value(v, v)` is an identity; so "returns true iff some mutation
occurred" is false, and a function a previous invocation left unmodified
is reported modified again. -/
theorem cfs_C3_counterexample : runOnCfg cex2 = some (cex2, true) := by rfl

theorem mutateAGo_flag_true (ps : List (Inst × List (Value × List Cond))) :
    ∀ um um', mutateAGo ps um = some um' → um.2 = true → um'.2 = true := by
  induction ps with
  | nil =>
    intro um um' h ht
    cases h
    exact ht
  | cons p ps ih =>
    intro um um' h _
    rw [mutateAGo] at h
    cases hs : mutateAStep um.1 p with
    | none => rw [hs] at h; cases h
    | some u1 =>
      rw [hs] at h
      exact ih (u1, true) um' h rfl

theorem mutateA_false (u : IRUnit) (pairs : List (Inst × List (Value × List Cond)))
    (u' : IRUnit) (h : mutateA u pairs = some (u', false)) :
    pairs = [] ∧ u' = u := by
  cases pairs with
  | nil =>
    refine ⟨rfl, ?_⟩
    rw [mutateA, mutateAGo] at h
    cases h
    rfl
  | cons p ps =>
    exfalso
    rw [mutateA, mutateAGo] at h
    cases hs : mutateAStep u p with
    | none => rw [hs] at h; cases h
    | some u1 =>
      rw [hs] at h
      have := mutateAGo_flag_true ps (u1, true) (u', false) h rfl
      cases this

theorem mutateElideGo_flag_true (ps : List (Inst × Value)) :
    ∀ um um', mutateElideGo ps um = some um' → um.2 = true → um'.2 = true := by
  induction ps with
  | nil =>
    intro um um' h ht
    cases h
    exact ht
  | cons p ps ih =>
    intro um um' h _
    rw [mutateElideGo] at h
    cases hs : elideApply um.1 p.1 p.2 with
    | none => rw [hs] at h; cases h
    | some u1 =>
      rw [hs] at h
      exact ih (u1, true) um' h rfl

theorem mutateElide_false (u : IRUnit) (elides : List (Inst × Value))
    (u' : IRUnit) (h : mutateElide u elides = some (u', false)) :
    elides = [] ∧ u' = u := by
  cases elides with
  | nil =>
    refine ⟨rfl, ?_⟩
    rw [mutateElide, mutateElideGo] at h
    cases h
    rfl
  | cons p ps =>
    exfalso
    rw [mutateElide, mutateElideGo] at h
    cases hs : elideApply u p.1 p.2 with
    | none => rw [hs] at h; cases h
    | some u1 =>
      rw [hs] at h
      have := mutateElideGo_flag_true ps (u1, true) (u', false) h rfl
      cases this

/-- C3 (amended): the flag is true exactly when phase A recorded at least
one merge or phase B recorded at least one elidable merge — not when a
mutation actually changed the function; what survives of the claim is:
an invocation that returns `false` leaves the function unchanged, and a
second consecutive invocation on it again performs no mutation and
returns `false`. -/
theorem cfs_C3_amended (u u' : IRUnit) (h : runOnCfg u = some (u', false)) :
    u' = u ∧ runOnCfg u' = some (u', false) := by
  have hu : u' = u := by
    unfold runOnCfg at h
    cases hs : scanA u with
    | error e => simp only [hs] at h; cases h
    | ok pairs =>
      simp only [hs] at h
      cases hm : mutateA u pairs with
      | none => simp only [hm] at h; cases h
      | some um =>
        simp only [hm] at h
        obtain ⟨u1, m1⟩ := um
        cases he : mutateElide u1 (scanElide u1) with
        | none => simp only [he] at h; cases h
        | some um2 =>
          simp only [he] at h
          obtain ⟨u2, m2⟩ := um2
          simp only [Option.some.injEq, Prod.mk.injEq] at h
          obtain ⟨hu2, hm12⟩ := h
          rcases Bool.or_eq_false_iff.mp hm12 with ⟨hm1, hm2⟩
          subst hm1
          subst hm2
          obtain ⟨_, hu1⟩ := mutateA_false u pairs u1 hm
          obtain ⟨_, hu21⟩ := mutateElide_false u1 (scanElide u1) u2 he
          rw [← hu2, hu21, hu1]
  refine ⟨hu, ?_⟩
  rw [hu] at h ⊢
  exact h

/-- Witness for `cfs_C3_amended`: on the phi-free function `uNoPhi` the
pass reports no modification, and a second invocation again reports
`false` on the unchanged unit. -/
theorem cfs_C3_amended_witness : runOnCfg uNoPhi = some (uNoPhi, false) :=
  (cfs_C3_amended uNoPhi uNoPhi (by rfl)).2

/-! ## C1: discriminator soundness fails on a realizable way list -/

/-- C1 (code_bug): on the realizable function `cexD` the scan hands
`build_discriminator` the way list `waysD`, which contains the way
`(14, [Neg 1, Pos 3])` (value 14 is correct whenever value 1 is false and
value 3 is true).  The histogram counts repeated mentions, so value `2`
(uses 6, from paths branching on it several times) beats value `1`
(uses 5) although the way of value 14 never mentions value `2`; that way
is dropped from both partitions, and under the satisfying assignment
`sigD` (1 ↦ false, 3 ↦ true, 2 ↦ false) the constructed selection tree
evaluates to value 16, not 14 — the documented output guarantee of
Discriminator Synthesis is violated. -/
theorem cfs_C1_discriminator_unsound :
    scanA cexD = .ok [(20, waysD)]
    ∧ (14, [Cond.Neg 1, Cond.Pos 3]) ∈ waysD
    ∧ satisfies sigD [Cond.Neg 1, Cond.Pos 3] = true
    ∧ (buildDisc (bdFuel waysD) cexD 20 waysD).map
        (fun p => valEval p.1 sigD 10 p.2) = some (some 16)
    ∧ (16 : Value) ≠ 14 :=
  ⟨by rfl, by decide, by rfl, by rfl, by decide⟩

/-! ## C4: the chosen discriminator need not cover every way -/

/-- C4 (counterexample): on the realizable way list `waysD` (see
`cexD`), the selection rule picks value `2` with `uses(2) = 6` although
there are only 5 ways — repeated mentions inflate the count — and the way
`(14, [Neg 1, Pos 3])` mentions neither polarity of `2`, so the two
partitions together hold only 4 of the 5 ways: the claimed invariant
`uses(discriminator) = len(ways)` is false and a way is dropped. -/
theorem cfs_C4_counterexample :
    chooseDisc waysD = some 2
    ∧ waysD.length = 5
    ∧ usesOf waysD 2 = 6
    ∧ (14, [Cond.Neg 1, Cond.Pos 3]) ∈ waysD
    ∧ (splitWays waysD (Cond.Neg 2)).length + (splitWays waysD (Cond.Pos 2)).length = 4 :=
  ⟨by rfl, by rfl, by rfl, by decide, by rfl⟩

theorem leKey_refl (a : Nat × Int) : leKey a a := Or.inr ⟨rfl, le_refl _⟩

theorem leKey_trans {a b c : Nat × Int} (h1 : leKey a b) (h2 : leKey b c) : leKey a c := by
  unfold leKey at *
  omega

theorem leKey_of_keyGe {a b : Nat × Int} (h : keyGe a b = true) : leKey b a := by
  simp only [keyGe, decide_eq_true_eq] at h
  unfold leKey
  omega

theorem leKey_of_not_keyGe {a b : Nat × Int} (h : ¬ keyGe a b = true) : leKey a b := by
  simp only [keyGe, decide_eq_true_eq] at h
  unfold leKey
  omega

theorem maxByKeyGo_spec (key : Value → Nat × Int) :
    ∀ (l : List Value) (b : Value),
      (maxByKeyGo key l b = b ∨ maxByKeyGo key l b ∈ l)
      ∧ leKey (key b) (key (maxByKeyGo key l b))
      ∧ (∀ x ∈ l, leKey (key x) (key (maxByKeyGo key l b))) := by
  intro l
  induction l with
  | nil =>
    intro b
    exact ⟨Or.inl rfl, leKey_refl _, by simp⟩
  | cons v ls ih =>
    intro b
    rw [maxByKeyGo]
    by_cases hk : keyGe (key v) (key b) = true
    · rw [if_pos hk]
      rcases ih v with ⟨hmem, hle, hall⟩
      refine ⟨?_, ?_, ?_⟩
      · rcases hmem with he | he
        · refine Or.inr ?_
          rw [he]
          exact List.mem_cons_self _ _
        · exact Or.inr (List.mem_cons_of_mem _ he)
      · exact leKey_trans (leKey_of_keyGe hk) hle
      · intro x hx
        rcases List.mem_cons.mp hx with hxe | hx
        · exact hxe ▸ hle
        · exact hall x hx
    · rw [if_neg hk]
      rcases ih b with ⟨hmem, hle, hall⟩
      refine ⟨?_, hle, ?_⟩
      · rcases hmem with he | he
        · exact Or.inl he
        · exact Or.inr (List.mem_cons_of_mem _ he)
      · intro x hx
        rcases List.mem_cons.mp hx with hxe | hx
        · exact hxe ▸ leKey_trans (leKey_of_not_keyGe hk) hle
        · exact hall x hx

theorem maxByKeyLast_spec (key : Value → Nat × Int) (l : List Value) (v : Value)
    (h : maxByKeyLast key l = some v) :
    v ∈ l ∧ ∀ x ∈ l, leKey (key x) (key v) := by
  cases l with
  | nil => cases h
  | cons w ls =>
    rw [maxByKeyLast] at h
    injection h with h
    subst h
    rcases maxByKeyGo_spec key ls w with ⟨hmem, hle, hall⟩
    refine ⟨?_, ?_⟩
    · rcases hmem with he | he
      · rw [he]
        exact List.mem_cons_self _ _
      · exact List.mem_cons_of_mem _ he
    · intro x hx
      rcases List.mem_cons.mp hx with hxe | hx
      · exact hxe ▸ hle
      · exact hall x hx

theorem maxByKeyLast_isSome (key : Value → Nat × Int) (l : List Value) (hl : l ≠ []) :
    (maxByKeyLast key l).isSome := by
  cases l with
  | nil => exact absurd rfl hl
  | cons w ls => rfl

theorem mem_keys_fold (l : List Cond) :
    ∀ (acc : List Value) (x : Value),
      x ∈ l.foldl
        (fun acc c => if condValue c ∈ acc then acc else acc ++ [condValue c]) acc
      ↔ x ∈ acc ∨ (∃ c ∈ l, condValue c = x) := by
  induction l with
  | nil => intro acc x; simp
  | cons c cs ih =>
    intro acc x
    rw [List.foldl_cons, ih]
    by_cases hc : condValue c ∈ acc
    · simp only [hc, if_true]
      constructor
      · rintro (hx | ⟨c', hc', he⟩)
        · exact Or.inl hx
        · exact Or.inr ⟨c', List.mem_cons_of_mem _ hc', he⟩
      · rintro (hx | ⟨c', hc', he⟩)
        · exact Or.inl hx
        · rcases List.mem_cons.mp hc' with rfl | hc'
          · exact Or.inl (he ▸ hc)
          · exact Or.inr ⟨c', hc', he⟩
    · simp only [hc, if_false]
      constructor
      · rintro (hx | ⟨c', hc', he⟩)
        · rcases List.mem_append.mp hx with hx | hx
          · exact Or.inl hx
          · exact Or.inr ⟨c, List.mem_cons_self _ _, (List.mem_singleton.mp hx).symm⟩
        · exact Or.inr ⟨c', List.mem_cons_of_mem _ hc', he⟩
      · rintro (hx | ⟨c', hc', he⟩)
        · exact Or.inl (List.mem_append_left _ hx)
        · rcases List.mem_cons.mp hc' with rfl | hc'
          · exact Or.inl (List.mem_append_right _ (List.mem_singleton.mpr he.symm))
          · exact Or.inr ⟨c', hc', he⟩

theorem mem_keysOf (ways : List (Value × List Cond)) (x : Value) :
    x ∈ keysOf ways ↔ ∃ c ∈ allConds ways, condValue c = x := by
  rw [keysOf, mem_keys_fold]
  simp

theorem allConds_cons (w : Value × List Cond) (ws : List (Value × List Cond)) :
    allConds (w :: ws) = w.2 ++ allConds ws := by
  rw [allConds, allConds, List.map_cons, List.flatten_cons]

theorem usesOf_cons (w : Value × List Cond) (ws : List (Value × List Cond)) (v : Value) :
    usesOf (w :: ws) v
      = w.2.countP (fun c => condValue c = v) + usesOf ws v := by
  rw [usesOf, usesOf, allConds_cons, List.countP_append]

theorem way_count_le_one (w : Value × List Cond) (v : Value)
    (hnodup : (w.2.map condValue).Nodup) :
    w.2.countP (fun c => condValue c = v) ≤ 1 := by
  have h : w.2.countP (fun c => condValue c = v) = (w.2.map condValue).count v := by
    induction w.2 with
    | nil => rfl
    | cons c cs ih =>
      rw [List.countP_cons, List.map_cons, List.count_cons, ih]
      by_cases hc : condValue c = v
      · simp [hc]
      · simp [hc]
  rw [h]
  exact List.nodup_iff_count_le_one.mp hnodup v

theorem way_count_pos (w : Value × List Cond) (v : Value)
    (hmem : v ∈ w.2.map condValue) :
    1 ≤ w.2.countP (fun c => condValue c = v) := by
  rcases List.mem_map.mp hmem with ⟨c, hc, he⟩
  exact List.countP_pos_iff.mpr ⟨c, hc, by simpa using he⟩

theorem usesOf_le_length (ways : List (Value × List Cond)) (v : Value)
    (hnodup : ∀ w ∈ ways, (w.2.map condValue).Nodup) :
    usesOf ways v ≤ ways.length := by
  induction ways with
  | nil => simp [usesOf, allConds]
  | cons w ws ih =>
    rw [usesOf_cons, List.length_cons]
    have h1 := way_count_le_one w v (hnodup w (List.mem_cons_self _ _))
    have h2 := ih (fun x hx => hnodup x (List.mem_cons_of_mem _ hx))
    omega

theorem length_le_usesOf (ways : List (Value × List Cond)) (v : Value)
    (hall : ∀ w ∈ ways, v ∈ w.2.map condValue) :
    ways.length ≤ usesOf ways v := by
  induction ways with
  | nil => simp
  | cons w ws ih =>
    rw [usesOf_cons, List.length_cons]
    have h1 := way_count_pos w v (hall w (List.mem_cons_self _ _))
    have h2 := ih (fun x hx => hall x (List.mem_cons_of_mem _ hx))
    omega

theorem all_mention_of_usesOf_eq (ways : List (Value × List Cond)) (v : Value)
    (hnodup : ∀ w ∈ ways, (w.2.map condValue).Nodup)
    (heq : usesOf ways v = ways.length) :
    ∀ w ∈ ways, v ∈ w.2.map condValue := by
  induction ways with
  | nil => intro w hw; cases hw
  | cons w ws ih =>
    rw [usesOf_cons, List.length_cons] at heq
    have h1 := way_count_le_one w v (hnodup w (List.mem_cons_self _ _))
    have h2 := usesOf_le_length ws v (fun x hx => hnodup x (List.mem_cons_of_mem _ hx))
    have hw1 : w.2.countP (fun c => condValue c = v) = 1 := by omega
    have hws : usesOf ws v = ws.length := by omega
    intro x hx
    rcases List.mem_cons.mp hx with rfl | hx
    · rcases List.countP_pos_iff.mp (by omega : 0 < x.2.countP (fun c => condValue c = v))
        with ⟨c, hc, hcv⟩
      exact List.mem_map.mpr ⟨c, hc, by simpa using hcv⟩
    · exact ih (fun y hy => hnodup y (List.mem_cons_of_mem _ hy)) hws x hx

theorem two_le_countP {α : Type} {l : List α} {a b : α} (p : α → Bool)
    (ha : a ∈ l) (hb : b ∈ l) (hab : a ≠ b) (hpa : p a = true) (hpb : p b = true) :
    2 ≤ l.countP p := by
  induction l with
  | nil => cases ha
  | cons x xs ih =>
    rw [List.countP_cons]
    rcases List.mem_cons.mp ha with rfl | ha'
    · rcases List.mem_cons.mp hb with rfl | hb'
      · exact absurd rfl hab
      · have h1 : 0 < xs.countP p := List.countP_pos_iff.mpr ⟨b, hb', hpb⟩
        rw [if_pos hpa]
        omega
    · rcases List.mem_cons.mp hb with rfl | hb'
      · have h1 : 0 < xs.countP p := List.countP_pos_iff.mpr ⟨a, ha', hpa⟩
        rw [if_pos hpb]
        omega
      · have h1 := ih ha' hb'
        omega

theorem splitWays_length (ways : List (Value × List Cond)) (cond : Cond) :
    (splitWays ways cond).length = ways.countP (fun w => cond ∈ w.2) := by
  induction ways with
  | nil => rfl
  | cons w ws ih =>
    rw [splitWays, List.filterMap_cons]
    rw [splitWays] at ih
    by_cases hc : cond ∈ w.2
    · rw [if_pos hc, List.length_cons, List.countP_cons, ih, if_pos (by simpa using hc)]
    · rw [if_neg hc, List.countP_cons, ih, if_neg (by simpa using hc)]
      omega

theorem split_partition (ways : List (Value × List Cond)) (d : Value)
    (hnodup : ∀ w ∈ ways, (w.2.map condValue).Nodup)
    (hmention : ∀ w ∈ ways, d ∈ w.2.map condValue) :
    (splitWays ways (Cond.Neg d)).length + (splitWays ways (Cond.Pos d)).length
      = ways.length := by
  rw [splitWays_length, splitWays_length,
    ways.length_eq_countP_add_countP (fun w => Cond.Neg d ∈ w.2)]
  congr 1
  apply List.countP_congr
  intro w hw
  simp only [decide_eq_true_eq]
  constructor
  · intro hpos hneg
    have h2 := two_le_countP (fun c => condValue c = d)
      (l := w.2) (a := Cond.Pos d) (b := Cond.Neg d) hpos hneg (by simp)
      (by simp [condValue]) (by simp [condValue])
    have h1 := way_count_le_one w d (hnodup w hw)
    omega
  · intro hneg
    rcases List.mem_map.mp (hmention w hw) with ⟨c, hc, he⟩
    cases c with
    | Pos v =>
      have hv : v = d := by simpa [condValue] using he
      exact hv ▸ hc
    | Neg v =>
      have hv : v = d := by simpa [condValue] using he
      exact absurd (hv ▸ hc) hneg

theorem leKey_fst {a b : Nat × Int} (h : leKey a b) : a.1 ≤ b.1 := by
  unfold leKey at h
  omega

/-- C4 (amended): on way lists where each conjunction mentions each value
at most once and some value is mentioned by every way (two invariants a
single pass through distinct branch selectors would provide), the chosen
discriminator does satisfy `uses(d) = len(ways)`, every way mentions it,
and the two partitions cover every way; in general (repeated mentions —
see the counterexample) the invariant fails and a way is dropped. -/
theorem cfs_C4_amended (ways : List (Value × List Cond)) (s : Value)
    (hnodup : ∀ w ∈ ways, (w.2.map condValue).Nodup)
    (hcommon : ∀ w ∈ ways, s ∈ w.2.map condValue)
    (hlen : 2 ≤ ways.length) :
    ∃ d, chooseDisc ways = some d
      ∧ usesOf ways d = ways.length
      ∧ (∀ w ∈ ways, d ∈ w.2.map condValue)
      ∧ (splitWays ways (Cond.Neg d)).length + (splitWays ways (Cond.Pos d)).length
          = ways.length := by
  obtain ⟨w0, hw0⟩ : ∃ w, w ∈ ways := by
    cases ways with
    | nil => simp at hlen
    | cons a l => exact ⟨a, List.mem_cons_self _ _⟩
  have hs_keys : s ∈ keysOf ways := by
    apply (mem_keysOf ways s).mpr
    rcases List.mem_map.mp (hcommon w0 hw0) with ⟨c, hc, he⟩
    exact ⟨c, List.mem_flatten.mpr ⟨w0.2, List.mem_map_of_mem _ hw0, hc⟩, he⟩
  have hkeys_ne : keysOf ways ≠ [] := by
    intro h
    rw [h] at hs_keys
    cases hs_keys
  obtain ⟨d, hd⟩ : ∃ d, chooseDisc ways = some d := by
    rcases Option.isSome_iff_exists.mp (maxByKeyLast_isSome (discKey ways) _ hkeys_ne)
      with ⟨d, hd⟩
    exact ⟨d, hd⟩
  rcases maxByKeyLast_spec (discKey ways) _ d hd with ⟨_, hmax⟩
  have huse_s_d : usesOf ways s ≤ usesOf ways d := leKey_fst (hmax s hs_keys)
  have h1 : ways.length ≤ usesOf ways s := length_le_usesOf ways s hcommon
  have h2 : usesOf ways d ≤ ways.length := usesOf_le_length ways d hnodup
  have heq : usesOf ways d = ways.length := by omega
  have hment := all_mention_of_usesOf_eq ways d hnodup heq
  exact ⟨d, hd, heq, hment, split_partition ways d hnodup hment⟩

/-- Witness for `cfs_C4_amended`: a two-way diamond list with the common
selector `9`, mentioned once per way. -/
theorem cfs_C4_amended_witness :
    ∃ d, chooseDisc [(7, [Cond.Pos 9]), (8, [Cond.Neg 9])] = some d
      ∧ usesOf [(7, [Cond.Pos 9]), (8, [Cond.Neg 9])] d = 2
      ∧ (∀ w ∈ [((7 : Value), [Cond.Pos 9]), (8, [Cond.Neg 9])], d ∈ w.2.map condValue)
      ∧ (splitWays [(7, [Cond.Pos 9]), (8, [Cond.Neg 9])] (Cond.Neg d)).length
          + (splitWays [(7, [Cond.Pos 9]), (8, [Cond.Neg 9])] (Cond.Pos d)).length = 2 :=
  cfs_C4_amended [(7, [Cond.Pos 9]), (8, [Cond.Neg 9])] 9
    (by decide) (by decide) (by decide)

/-! ## C6: elision of trivial merges -/

theorem lookupA_map_values {β : Type} (l : List (Nat × β)) (g : Nat × β → β) (b : Nat) :
    lookupA (l.map (fun p => (p.1, g p))) b
      = (l.find? (fun p => p.1 = b)).map (fun p => g p) := by
  induction l with
  | nil => rfl
  | cons p ps ih =>
    unfold lookupA at *
    rw [List.map_cons, List.find?_cons, List.find?_cons]
    by_cases hp : p.1 = b
    · simp [hp]
    · simp only [hp]
      simpa [hp] using ih

theorem lookupA_filter_ne {β : Type} (l : List (Nat × β)) (j i : Nat) (h : i ≠ j) :
    lookupA (l.filter (fun p => p.1 ≠ j)) i = lookupA l i := by
  induction l with
  | nil => rfl
  | cons p ps ih =>
    unfold lookupA at *
    rw [List.filter_cons]
    by_cases hp : p.1 = j
    · rw [if_neg (by simp [hp])]
      rw [List.find?_cons]
      have h2 : decide (p.1 = i) = false := by
        simp only [decide_eq_false_iff_not]
        intro he
        apply h
        rw [← he, hp]
      rw [h2]
      exact ih
    · rw [if_pos (by simp [hp])]
      rw [List.find?_cons, List.find?_cons]
      by_cases hpi : p.1 = i
      · have h2 : decide (p.1 = i) = true := by simp [hpi]
        rw [h2]
      · have h2 : decide (p.1 = i) = false := by simp [hpi]
        rw [h2]
        exact ih

theorem lookupA_filter_self {β : Type} (l : List (Nat × β)) (j : Nat) :
    lookupA (l.filter (fun p => p.1 ≠ j)) j = none := by
  induction l with
  | nil => rfl
  | cons p ps ih =>
    unfold lookupA at *
    rw [List.filter_cons]
    by_cases hp : p.1 = j
    · rw [if_neg (by simp [hp])]
      exact ih
    · rw [if_pos (by simp [hp])]
      rw [List.find?_cons]
      have h2 : decide (p.1 = j) = false := by simp [hp]
      rw [h2]
      exact ih

theorem distinctList_fold_all_eq (w0 : Value) :
    ∀ l : List Value, (∀ a ∈ l, a = w0) →
      l.foldl (fun acc v => if v ∈ acc then acc else acc ++ [v]) [w0] = [w0] := by
  intro l
  induction l with
  | nil => intro _; rfl
  | cons a as ih =>
    intro hall
    rw [List.foldl_cons]
    have ha : a = w0 := hall a (List.mem_cons_self _ _)
    rw [if_pos (by rw [ha]; exact List.mem_singleton.mpr rfl)]
    exact ih (fun x hx => hall x (List.mem_cons_of_mem _ hx))

theorem distinctList_all_eq (l : List Value) (w0 : Value)
    (hne : l ≠ []) (hall : ∀ a ∈ l, a = w0) :
    distinctList l = [w0] := by
  cases l with
  | nil => exact absurd rfl hne
  | cons a as =>
    rw [distinctList, List.foldl_cons]
    have ha : a = w0 := hall a (List.mem_cons_self _ _)
    rw [if_neg (List.not_mem_nil a), List.nil_append, ha]
    exact distinctList_fold_all_eq w0 as (fun x hx => hall x (List.mem_cons_of_mem _ hx))

theorem mem_distinctList_fold (l : List Value) :
    ∀ acc x, x ∈ l.foldl (fun acc v => if v ∈ acc then acc else acc ++ [v]) acc
      ↔ x ∈ acc ∨ x ∈ l := by
  induction l with
  | nil => intro acc x; simp
  | cons a as ih =>
    intro acc x
    rw [List.foldl_cons, ih]
    by_cases ha : a ∈ acc
    · rw [if_pos ha]
      constructor
      · rintro (hx | hx)
        · exact Or.inl hx
        · exact Or.inr (List.mem_cons_of_mem _ hx)
      · rintro (hx | hx)
        · exact Or.inl hx
        · rcases List.mem_cons.mp hx with rfl | hx
          · exact Or.inl ha
          · exact Or.inr hx
    · rw [if_neg ha]
      constructor
      · rintro (hx | hx)
        · rcases List.mem_append.mp hx with hx | hx
          · exact Or.inl hx
          · exact Or.inr (List.mem_cons.mpr (Or.inl (List.mem_singleton.mp hx)))
        · exact Or.inr (List.mem_cons_of_mem _ hx)
      · rintro (hx | hx)
        · exact Or.inl (List.mem_append_left _ hx)
        · rcases List.mem_cons.mp hx with rfl | hx
          · exact Or.inl (List.mem_append_right _ (List.mem_singleton.mpr rfl))
          · exact Or.inr hx

theorem mem_distinctList (l : List Value) (x : Value) :
    x ∈ distinctList l ↔ x ∈ l := by
  rw [distinctList, mem_distinctList_fold]
  simp

theorem two_le_length_of_two_mem {α : Type} {l : List α} {a b : α}
    (ha : a ∈ l) (hb : b ∈ l) (hab : a ≠ b) : 2 ≤ l.length := by
  cases l with
  | nil => cases ha
  | cons x xs =>
    rcases List.mem_cons.mp ha with rfl | ha'
    · rcases List.mem_cons.mp hb with hb' | hb'
      · exact absurd hb'.symm hab
      · have := List.length_pos.mpr (List.ne_nil_of_mem hb')
        simp only [List.length_cons]
        omega
    · have := List.length_pos.mpr (List.ne_nil_of_mem ha')
      simp only [List.length_cons]
      omega

theorem lookupA_map_snd {β : Type} (f : β → β) (l : List (Nat × β)) (i : Nat) :
    lookupA (l.map (fun p => (p.1, f p.2))) i = (lookupA l i).map f := by
  induction l with
  | nil => rfl
  | cons p ps ih =>
    unfold lookupA at *
    rw [List.map_cons, List.find?_cons, List.find?_cons]
    dsimp only
    by_cases hp : p.1 = i
    · have h2 : decide (p.1 = i) = true := by simp [hp]
      rw [h2]
      rfl
    · have h2 : decide (p.1 = i) = false := by simp [hp]
      rw [h2]
      exact ih

theorem getData_replaceUseAll (u : IRUnit) (r w : Value) (i : Inst) :
    getData (replaceUseAll u r w) i
      = (getData u i).map
          (fun d2 => { d2 with args := d2.args.map (fun a => if a = r then w else a) }) := by
  exact lookupA_map_snd
    (fun d2 => { d2 with args := d2.args.map (fun a => if a = r then w else a) }) u.data i

theorem valueUsed_replace_self (u : IRUnit) (r w : Value) (hrw : r ≠ w) :
    valueUsed (replaceUseAll u r w) r = false := by
  unfold valueUsed
  rw [List.any_eq_false]
  intro p hp
  have hp2 : p ∈ u.data.map (fun q => ((q.1 : Inst),
      { q.2 with args := q.2.args.map (fun a => if a = r then w else a) })) := hp
  rcases List.mem_map.mp hp2 with ⟨q, _, rfl⟩
  simp only [decide_eq_true_eq]
  intro hr
  rcases List.mem_map.mp hr with ⟨a, _, hsub⟩
  by_cases har : a = r
  · rw [if_pos har] at hsub
    exact hrw hsub.symm
  · rw [if_neg har] at hsub
    exact har hsub

/-- C6 (confirmed): a merge instruction whose operand list is nonempty and
holds exactly one distinct value `w` is recognized by `maybe_elide_phi`;
applying the recorded elision rewrites every operand slot (of every
instruction in the function) that held the merge's result `r` to `w` and
removes the now-unused merge from the data table and from every block's
instruction list (the hypothesis `r ≠ w` reflects SSA validity — a merge
is not an operand of itself); a merge with two or more distinct operand
values is never elided; and mutate phase B reports a modification
whenever at least one elision was recorded. -/
theorem cfs_C6_elision :
    (∀ (u : IRUnit) (inst : Inst) (d : InstData) (w r : Value),
      getData u inst = some d → d.args ≠ [] → (∀ a ∈ d.args, a = w) →
      d.result = some r → r ≠ w →
      maybeElidePhi u inst = some w
      ∧ ∀ u2, elideApply u inst w = some u2 →
          (∀ i d2, i ≠ inst → getData u i = some d2 →
            getData u2 i = some { d2 with
              args := d2.args.map (fun a => if a = r then w else a) })
          ∧ getData u2 inst = none
          ∧ (∀ b, inst ∉ blockInsts u2 b))
    ∧ (∀ (u : IRUnit) (inst : Inst) (d : InstData) (a b : Value),
        getData u inst = some d → a ∈ d.args → b ∈ d.args → a ≠ b →
        maybeElidePhi u inst = none)
    ∧ (∀ (u : IRUnit) (p : Inst × Value) (ps : List (Inst × Value)) (um : IRUnit × Bool),
        mutateElide u (p :: ps) = some um → um.2 = true) := by
  refine ⟨?_, ?_, ?_⟩
  · intro u inst d w r hd hne hall hres hrw
    have helide : maybeElidePhi u inst = some w := by
      unfold maybeElidePhi
      simp only [hd]
      rw [distinctList_all_eq d.args w hne hall]
      simp
    refine ⟨helide, ?_⟩
    intro u2 h2
    have hres0 : instResult u inst = some r := by
      unfold instResult
      rw [hd]
      exact hres
    have hu2 : u2 = pruneIfUnused (replaceUseAll u r w) inst := by
      unfold elideApply at h2
      rw [hres0] at h2
      simp only [Option.some_bind] at h2
      injection h2 with h3
      exact h3.symm
    have hgd1 : ∀ i, getData (replaceUseAll u r w) i
        = (getData u i).map
            (fun d2 => { d2 with args := d2.args.map (fun a => if a = r then w else a) }) :=
      getData_replaceUseAll u r w
    have hres1 : instResult (replaceUseAll u r w) inst = some r := by
      unfold instResult
      rw [hgd1, hd]
      simpa using hres
    have hused : valueUsed (replaceUseAll u r w) r = false := valueUsed_replace_self u r w hrw
    have hprune : pruneIfUnused (replaceUseAll u r w) inst
        = ⟨(replaceUseAll u r w).entry, (replaceUseAll u r w).blockList,
           (replaceUseAll u r w).insts.map (fun bl => (bl.1, bl.2.filter (fun i2 => i2 ≠ inst))),
           (replaceUseAll u r w).data.filter (fun p => p.1 ≠ inst),
           (replaceUseAll u r w).nextInst, (replaceUseAll u r w).nextValue⟩ := by
      unfold pruneIfUnused
      rw [hres1]
      simp only [hused, Bool.false_eq_true, if_false]
    refine ⟨?_, ?_, ?_⟩
    · intro i d2 hi hgd
      rw [hu2, hprune]
      show lookupA ((replaceUseAll u r w).data.filter (fun p => p.1 ≠ inst)) i = _
      rw [lookupA_filter_ne _ _ _ hi]
      have hx := hgd1 i
      unfold getData at hx
      rw [hx]
      unfold getData at hgd
      rw [hgd]
      rfl
    · rw [hu2, hprune]
      show lookupA ((replaceUseAll u r w).data.filter (fun p => p.1 ≠ inst)) inst = none
      exact lookupA_filter_self _ _
    · intro b
      rw [hu2, hprune]
      show inst ∉ (lookupA ((replaceUseAll u r w).insts.map
        (fun bl => (bl.1, bl.2.filter (fun i2 => i2 ≠ inst)))) b).getD []
      have hm := lookupA_map_snd (fun l2 : List Inst => l2.filter (fun i2 => i2 ≠ inst))
        (replaceUseAll u r w).insts b
      rw [hm]
      cases lookupA (replaceUseAll u r w).insts b with
      | none => simp
      | some l2 => simp [List.mem_filter]
  · intro u inst d a b hd ha hb hab
    unfold maybeElidePhi
    simp only [hd]
    have h2 : 2 ≤ (distinctList d.args).length :=
      two_le_length_of_two_mem ((mem_distinctList _ _).mpr ha)
        ((mem_distinctList _ _).mpr hb) hab
    rw [if_neg (by omega)]
  · intro u p ps um h
    rw [mutateElide, mutateElideGo] at h
    cases hs : elideApply u p.1 p.2 with
    | none => rw [hs] at h; cases h
    | some u1 =>
      rw [hs] at h
      exact mutateElideGo_flag_true ps (u1, true) um h rfl

/-- Witness for `cfs_C6_elision`: on `uElide` the trivial phi
(instruction `1`, operands `[5, 5]`, result `6`) is recognized with value
`5`, and applying its elision removes the phi from the unit. -/
theorem cfs_C6_elision_witness :
    maybeElidePhi uElide 1 = some 5
    ∧ getData (pruneIfUnused (replaceUseAll uElide 6 5) 1) 1 = none := by
  have h := cfs_C6_elision.1 uElide 1 ⟨.phi, [5, 5], [0, 0], some 6⟩ 5 6
    (by rfl) (by decide) (by decide) (by rfl) (by decide)
  refine ⟨h.1, ?_⟩
  rcases h.2 (pruneIfUnused (replaceUseAll uElide 6 5) 1) (by rfl) with ⟨_, hnone, _⟩
  exact hnone

/-! ## C9: the frame property of mutate phase A -/

theorem getData_insertIns (u : IRUnit) (anchor : Inst) (d : InstData) (i : Inst)
    (hi : i < u.nextInst) :
    getData (insertIns u anchor d).1 i = getData u i := by
  unfold getData insertIns lookupA
  rw [List.find?_cons]
  have h2 : decide ((u.nextInst : Inst) = i) = false :=
    decide_eq_false (Nat.ne_of_gt hi)
  rw [h2]

theorem insertIns_nextInst (u : IRUnit) (anchor : Inst) (d : InstData) :
    (insertIns u anchor d).1.nextInst = u.nextInst + 1 := rfl

theorem buildDisc_frame :
    ∀ (fuel : Nat) (u : IRUnit) (anchor : Inst) (ways : List (Value × List Cond))
      (u1 : IRUnit) (v : Value),
      buildDisc fuel u anchor ways = some (u1, v) →
      u.nextInst ≤ u1.nextInst ∧ ∀ i, i < u.nextInst → getData u1 i = getData u i := by
  intro fuel
  induction fuel with
  | zero => intro u anchor ways u1 v h; cases h
  | succ fuel ih =>
    intro u anchor ways u1 v h
    rw [buildDisc] at h
    by_cases hlen : ways.length = 1
    · rw [if_pos hlen] at h
      cases hw : ways.head? with
      | none => rw [hw] at h; cases h
      | some w =>
        rw [hw] at h
        injection h with h
        injection h with h1 h2
        rw [← h1]
        exact ⟨le_refl _, fun i _ => rfl⟩
    · rw [if_neg hlen] at h
      cases hc : chooseDisc ways with
      | none => simp only [hc] at h; cases h
      | some disc =>
        simp only [hc] at h
        cases hb1 : buildDisc fuel u anchor (splitWays ways (Cond.Neg disc)) with
        | none => simp only [hb1] at h; cases h
        | some p1 =>
          simp only [hb1] at h
          cases hb2 : buildDisc fuel p1.1 anchor (splitWays ways (Cond.Pos disc)) with
          | none => simp only [hb2] at h; cases h
          | some p2 =>
            simp only [hb2] at h
            injection h with h
            injection h with h1 h2
            rcases ih u anchor _ p1.1 p1.2 (by rw [hb1]) with ⟨hn1, hf1⟩
            rcases ih p1.1 anchor _ p2.1 p2.2 (by rw [hb2]) with ⟨hn2, hf2⟩
            constructor
            · rw [← h1]
              refine le_trans (le_trans hn1 hn2) ?_
              show p2.1.nextInst ≤ (insertIns (insertIns p2.1 anchor _).1 anchor _).1.nextInst
              rw [insertIns_nextInst, insertIns_nextInst]
              exact Nat.le_add_right _ 2
            · intro i hi
              rw [← h1]
              have hi2 : i < p2.1.nextInst := Nat.lt_of_lt_of_le hi (le_trans hn1 hn2)
              have hi3 : i < (insertIns p2.1 anchor ⟨.arr, [p1.2, p2.2], [], none⟩).1.nextInst := by
                rw [insertIns_nextInst]
                exact Nat.lt_succ_of_lt hi2
              rw [getData_insertIns _ anchor _ i hi3, getData_insertIns _ anchor _ i hi2,
                hf2 i (Nat.lt_of_lt_of_le hi hn1), hf1 i hi]

theorem lookupA_map_if {β : Type} (f : β → β) (j : Nat) (l : List (Nat × β)) (i : Nat) :
    lookupA (l.map (fun p => if p.1 = j then (p.1, f p.2) else p)) i
      = if i = j then (lookupA l i).map f else lookupA l i := by
  induction l with
  | nil =>
    show (none : Option β) = if i = j then none else none
    split <;> rfl
  | cons p ps ih =>
    unfold lookupA at *
    rw [List.map_cons, List.find?_cons, List.find?_cons]
    by_cases hpi : p.1 = i
    · have hhead : (if p.1 = j then (p.1, f p.2) else p).1 = p.1 := by
        split <;> rfl
      have h2 : decide ((if p.1 = j then (p.1, f p.2) else p).1 = i) = true := by
        rw [hhead]
        simp [hpi]
      have h3 : decide (p.1 = i) = true := by simp [hpi]
      rw [h2, h3]
      by_cases hij : i = j
      · rw [if_pos hij, if_pos (by rw [hpi, hij])]
        rfl
      · rw [if_neg hij, if_neg (by rw [hpi]; exact hij)]
    · have hhead : (if p.1 = j then (p.1, f p.2) else p).1 = p.1 := by
        split <;> rfl
      have h2 : decide ((if p.1 = j then (p.1, f p.2) else p).1 = i) = false := by
        rw [hhead]
        simp [hpi]
      have h3 : decide (p.1 = i) = false := by simp [hpi]
      rw [h2, h3]
      exact ih

theorem getData_replaceValueIn_ne (u : IRUnit) (inst : Inst) (v1 v2 : Value)
    (i : Inst) (hi : i ≠ inst) :
    getData (replaceValueIn u inst v1 v2) i = getData u i := by
  have h := lookupA_map_if
    (fun d => { d with args := d.args.map (fun a => if a = v1 then v2 else a) }) inst u.data i
  rw [if_neg hi] at h
  exact h

theorem getData_replaceValueIn_self (u : IRUnit) (inst : Inst) (v1 v2 : Value) :
    getData (replaceValueIn u inst v1 v2) inst
      = (getData u inst).map
          (fun d => { d with args := d.args.map (fun a => if a = v1 then v2 else a) }) := by
  have h := lookupA_map_if
    (fun d => { d with args := d.args.map (fun a => if a = v1 then v2 else a) }) inst u.data inst
  rw [if_pos rfl] at h
  exact h

theorem foldReplace_ne (inst : Inst) (disc : Value) (ways : List (Value × List Cond)) :
    ∀ u0 i, i ≠ inst →
      getData (ways.foldl (fun uu vw => replaceValueIn uu inst vw.1 disc) u0) i
        = getData u0 i := by
  induction ways with
  | nil => intro u0 i _; rfl
  | cons w ws ih =>
    intro u0 i hi
    rw [List.foldl_cons, ih _ i hi, getData_replaceValueIn_ne _ _ _ _ i hi]

theorem foldReplace_self (inst : Inst) (disc : Value) (ways : List (Value × List Cond)) :
    ∀ u0, getData (ways.foldl (fun uu vw => replaceValueIn uu inst vw.1 disc) u0) inst
      = (getData u0 inst).map (fun d => { d with
          args := ways.foldl (fun ar vw => ar.map (fun a => if a = vw.1 then disc else a)) d.args }) := by
  induction ways with
  | nil =>
    intro u0
    rw [List.foldl_nil]
    cases hd : getData u0 inst with
    | none => rfl
    | some d => rfl
  | cons w ws ih =>
    intro u0
    rw [List.foldl_cons, ih, getData_replaceValueIn_self]
    cases hd : getData u0 inst with
    | none => rfl
    | some d => rfl

theorem foldl_subst_eq_map (disc : Value) :
    ∀ (ws : List (Value × List Cond)) (args : List Value),
      ws.foldl (fun ar vw => ar.map (fun a => if a = vw.1 then disc else a)) args
        = args.map (fun a => if a ∈ ws.map Prod.fst then disc else a) := by
  intro ws
  induction ws with
  | nil => intro args; simp
  | cons w ws ih =>
    intro args
    rw [List.foldl_cons, ih, List.map_map]
    apply List.map_congr_left
    intro a _
    by_cases haw : a = w.1
    · simp [haw]
    · simp only [Function.comp_apply]
      rw [if_neg haw, List.map_cons]
      by_cases hmem : a ∈ List.map Prod.fst ws
      · rw [if_pos hmem, if_pos (List.mem_cons_of_mem _ hmem)]
      · rw [if_neg hmem, if_neg (fun hc => (List.mem_cons.mp hc).elim haw hmem)]

/-- C9 (confirmed): for a recorded `(merge, ways)` pair, mutate phase A
replaces the way values by the discriminator only in the operand slots of
that merge instruction: every other pre-existing instruction keeps its
data unchanged (the pass only adds fresh `array`/`mux` instructions with
handles at or above `nextInst`), and the merge's operand list becomes its
old list with exactly the way values rewritten to the discriminator. -/
theorem cfs_C9_frame (u : IRUnit) (inst : Inst) (ways : List (Value × List Cond))
    (u' : IRUnit) (m : Bool)
    (hinst : inst < u.nextInst)
    (h : mutateA u [(inst, ways)] = some (u', m)) :
    (∀ i, i ≠ inst → i < u.nextInst → getData u' i = getData u i)
    ∧ ∀ d, getData u inst = some d → ∃ disc,
        getData u' inst = some { d with
          args := d.args.map (fun a => if a ∈ ways.map Prod.fst then disc else a) } := by
  rw [mutateA] at h
  rw [show mutateAGo [(inst, ways)] (u, false)
      = (do
          let u1 ← mutateAStep u (inst, ways)
          mutateAGo [] (u1, true)) from rfl] at h
  cases hs : mutateAStep u (inst, ways) with
  | none => rw [hs] at h; cases h
  | some u1 =>
    rw [hs] at h
    simp only [Option.some_bind, mutateAGo] at h
    injection h with h
    injection h with h1 _
    unfold mutateAStep at hs
    cases hb : buildDisc (bdFuel ways) u inst ways with
    | none => simp only [hb] at hs; cases hs
    | some r =>
      simp only [hb] at hs
      injection hs with hs
      rcases buildDisc_frame (bdFuel ways) u inst ways r.1 r.2 (by rw [hb]) with ⟨_, hfr⟩
      constructor
      · intro i hi hilt
        rw [← h1, ← hs, foldReplace_ne inst r.2 ways _ i hi, hfr i hilt]
      · intro d hd
        refine ⟨r.2, ?_⟩
        rw [← h1, ← hs, foldReplace_self inst r.2 ways, hfr inst hinst, hd,
          Option.map_some']
        rw [foldl_subst_eq_map]

/-- Witness for `cfs_C9_frame`: running mutate phase A of `cexD` on its
recorded pair leaves the data of the terminator instruction of the entry
block untouched. -/
theorem cfs_C9_frame_witness :
    getData ((mutateA cexD [(20, waysD)]).getD (cexD, false)).1 0 = getData cexD 0 :=
  (cfs_C9_frame cexD 20 waysD ((mutateA cexD [(20, waysD)]).getD (cexD, false)).1 true
    (by decide) (by rfl)).1 0 (by decide) (by decide)
